import Mathlib

/-!
# Binary search tree (`binarySearchTree.js`)

A shallow embedding of the classes `Node` and `Tree` of `binarySearchTree.js`
together with theorems about the embedded methods.

* A JavaScript node reference is a value of the inductive type `Node`; the
  reference `null` is the constructor `Node.null`.  The methods that assign to
  `node.left`, `node.right` or `node.data` and return `node` are embedded as
  functions returning the updated node.
* Keys are integers (`Int`).
* A traversal callback is a state transformer `σ → Node → σ`; an omitted
  callback is `none`.  A traversal returns the outcome (normal return or the
  raised error) together with the state the callback calls have produced.
-/

namespace BinarySearchTree

/-- A node reference: `null`, or an object of class `Node` with its fields. -/
inductive Node where
  | null : Node
  | mk (data : Int) (left right : Node) : Node
  deriving DecidableEq

/-- The class `Tree`: its only field is `root`. -/
structure Tree where
  root : Node
  deriving DecidableEq

/-! ## Construction -/

/-- The array `[...new Set(array)]`: the elements of `array` in order of first
occurrence, each once. -/
def newSet (array : List Int) : List Int :=
  array.foldl (fun seen x => if x ∈ seen then seen else seen ++ [x]) []

/-- The method `Array.prototype.sort` with the comparator `(a, b) => a - b`:
a stable ascending sort. -/
def sort (array : List Int) : List Int :=
  array.insertionSort (· ≤ ·)

/-- The element `array[i]`.  An index outside the array (where JavaScript
yields `undefined`) is mapped to `0`; `buildTree` never reads one: the keys
it stores are the elements of the cleaned array (`keys_buildTree`). -/
def arrayAt (array : List Int) (i : Int) : Int :=
  if 0 ≤ i then array.getD i.toNat 0 else 0

/-- The method `sortedArrayToBST(array, start, end)`. -/
def sortedArrayToBST (array : List Int) (start end_ : Int) : Node :=
  if start > end_ then Node.null
  else
    let mid := (start + end_) / 2
    Node.mk (arrayAt array mid)
      (sortedArrayToBST array start (mid - 1))
      (sortedArrayToBST array (mid + 1) end_)
termination_by (end_ + 1 - start).toNat
decreasing_by
  all_goals simp_wf
  all_goals omega

/-- The method `buildTree(array)`. -/
def buildTree (array : List Int) : Node :=
  let cleanArray := sort (newSet array)
  sortedArrayToBST cleanArray 0 ((cleanArray.length : Int) - 1)

/-- The constructor `new Tree(array)`. -/
def Tree.new (array : List Int) : Tree :=
  { root := buildTree array }

/-! ## Insertion, deletion, lookup -/

/-- The method `insertRec(node, value)`. -/
def insertRec : Node → Int → Node
  | .null, value => .mk value .null .null
  | .mk data left right, value =>
    if value < data then .mk data (insertRec left value) right
    else if value > data then .mk data left (insertRec right value)
    else .mk data left right

/-- The method `insert(value)`. -/
def Tree.insert (t : Tree) (value : Int) : Tree :=
  { root := insertRec t.root value }

/-- The method `findMin(node)`: follow `left` links while there is one.  On
`null` JavaScript raises a TypeError; `deleteRec` calls it on an object only,
and the result is then an object (`findMin_mk`). -/
def findMin : Node → Node
  | .null => .null
  | .mk data .null right => .mk data .null right
  | .mk _ (.mk data left right) _ => findMin (.mk data left right)

/-- The method `deleteRec(node, value)`. -/
def deleteRec : Node → Int → Node
  | .null, _ => .null
  | .mk data left right, value =>
    if value < data then .mk data (deleteRec left value) right
    else if value > data then .mk data left (deleteRec right value)
    else
      if left = .null then right
      else if right = .null then left
      else
        match findMin right with
        | .mk minData _ _ => .mk minData left (deleteRec right minData)
        | .null => .null

/-- The method `deleteItem(value)`. -/
def Tree.deleteItem (t : Tree) (value : Int) : Tree :=
  { root := deleteRec t.root value }

/-- The method `findRec(node, value)`. -/
def findRec : Node → Int → Node
  | .null, _ => .null
  | .mk data left right, value =>
    if data = value then .mk data left right
    else if value < data then findRec left value
    else findRec right value

/-- The method `find(value)`. -/
def Tree.find (t : Tree) (value : Int) : Node :=
  findRec t.root value

/-! ## Traversals -/

/-- The errors a traversal can raise. -/
inductive Error where
  /-- The `throw new Error(...)` of a traversal called without a callback. -/
  | callbackRequired : Error
  /-- The TypeError of reading a property of `null`. -/
  | typeError : Error
  deriving DecidableEq

/-- Number of objects of class `Node` reachable from a reference. -/
def Node.size : Node → Nat
  | .null => 0
  | .mk _ left right => left.size + right.size + 1

/-- The `while (queue.length > 0)` loop of `levelOrder`, from a given queue
and callback state. -/
def levelOrderLoop {σ : Type} (callback : σ → Node → σ) :
    List Node → σ → Except Error Unit × σ
  | [], s => (.ok (), s)
  | .null :: _, s => (.error .typeError, callback s .null)
  | .mk data left right :: rest, s =>
    let queue1 := if left ≠ .null then rest ++ [left] else rest
    let queue2 := if right ≠ .null then queue1 ++ [right] else queue1
    levelOrderLoop callback queue2 (callback s (.mk data left right))
termination_by queue => (queue.map Node.size).sum
decreasing_by
  simp_wf
  split_ifs <;> simp [Node.size] <;> omega

/-- The method `levelOrder(callback)`. -/
def Tree.levelOrder {σ : Type} (t : Tree) (callback : Option (σ → Node → σ)) (s : σ) :
    Except Error Unit × σ :=
  match callback with
  | none => (.error .callbackRequired, s)
  | some cb => levelOrderLoop cb [t.root] s

/-- The method `inOrder(callback, node)`. -/
def inOrder {σ : Type} (callback : Option (σ → Node → σ)) : Node → σ → Except Error Unit × σ
  | node, s =>
    match callback with
    | none => (.error .callbackRequired, s)
    | some cb =>
      match node with
      | .null => (.ok (), s)
      | .mk data left right =>
        match inOrder callback left s with
        | (.error e, s1) => (.error e, s1)
        | (.ok _, s1) => inOrder callback right (cb s1 (.mk data left right))

/-- The method `preOrder(callback, node)`. -/
def preOrder {σ : Type} (callback : Option (σ → Node → σ)) : Node → σ → Except Error Unit × σ
  | node, s =>
    match callback with
    | none => (.error .callbackRequired, s)
    | some cb =>
      match node with
      | .null => (.ok (), s)
      | .mk data left right =>
        match preOrder callback left (cb s (.mk data left right)) with
        | (.error e, s1) => (.error e, s1)
        | (.ok _, s1) => preOrder callback right s1

/-- The method `postOrder(callback, node)`. -/
def postOrder {σ : Type} (callback : Option (σ → Node → σ)) : Node → σ → Except Error Unit × σ
  | node, s =>
    match callback with
    | none => (.error .callbackRequired, s)
    | some cb =>
      match node with
      | .null => (.ok (), s)
      | .mk data left right =>
        match postOrder callback left s with
        | (.error e, s1) => (.error e, s1)
        | (.ok _, s1) =>
          match postOrder callback right s1 with
          | (.error e, s2) => (.error e, s2)
          | (.ok _, s2) => (.ok (), cb s2 (.mk data left right))

/-- The method `inOrder(callback)` with `node` defaulting to `this.root`. -/
def Tree.inOrder {σ : Type} (t : Tree) (callback : Option (σ → Node → σ)) (s : σ) :
    Except Error Unit × σ :=
  BinarySearchTree.inOrder callback t.root s

/-- The method `preOrder(callback)` with `node` defaulting to `this.root`. -/
def Tree.preOrder {σ : Type} (t : Tree) (callback : Option (σ → Node → σ)) (s : σ) :
    Except Error Unit × σ :=
  BinarySearchTree.preOrder callback t.root s

/-- The method `postOrder(callback)` with `node` defaulting to `this.root`. -/
def Tree.postOrder {σ : Type} (t : Tree) (callback : Option (σ → Node → σ)) (s : σ) :
    Except Error Unit × σ :=
  BinarySearchTree.postOrder callback t.root s

/-! ## Height, balance, rebalancing -/

/-- The method `height(node)`. -/
def height : Node → Int
  | .null => -1
  | .mk _ left right => max (height left) (height right) + 1

/-- The method `isBalanced(node)`. -/
def isBalanced : Node → Bool
  | .null => true
  | .mk _ left right =>
    let leftHeight := height left
    let rightHeight := height right
    decide ((leftHeight - rightHeight).natAbs ≤ 1) && isBalanced left && isBalanced right

/-- The method `isBalanced()` with `node` defaulting to `this.root`. -/
def Tree.isBalanced (t : Tree) : Bool :=
  BinarySearchTree.isBalanced t.root

/-- The callback `(node) => nodes.push(node.data)` of `rebalance`, on the
array `nodes`.  `inOrder` calls it on objects only. -/
def pushData (nodes : List Int) : Node → List Int
  | .null => nodes
  | .mk data _ _ => nodes ++ [data]

/-- The method `rebalance()`.  Were `inOrder` to raise, the assignment to
`this.root` would not run. -/
def Tree.rebalance (t : Tree) : Tree :=
  match t.inOrder (some pushData) [] with
  | (.ok _, nodes) => { root := buildTree nodes }
  | (.error _, _) => t

/-! ## Specification vocabulary -/

/-- The keys of a subtree, left subtree first, then the node, then the right
subtree. -/
def Node.keys : Node → List Int
  | .null => []
  | .mk data left right => left.keys ++ data :: right.keys

/-- The in-order key sequence of the tree, as `rebalance` collects it: the
array filled by `inOrder` with the callback `(node) => nodes.push(node.data)`. -/
def Tree.inOrderKeys (t : Tree) : List Int :=
  (t.inOrder (some pushData) []).2

/-- The BST property: at every node the keys of the left subtree are smaller
and the keys of the right subtree are greater than the node's key. -/
def IsBST : Node → Prop
  | .null => True
  | .mk data left right =>
    IsBST left ∧ IsBST right ∧ (∀ x ∈ left.keys, x < data) ∧ (∀ x ∈ right.keys, data < x)

/-- A call of `insert` or of `deleteItem`. -/
inductive Op where
  | insert (value : Int) : Op
  | deleteItem (value : Int) : Op
  deriving DecidableEq

/-- Perform one call on the tree. -/
def Tree.apply (t : Tree) : Op → Tree
  | .insert value => t.insert value
  | .deleteItem value => t.deleteItem value

/-- Perform a sequence of calls, first to last. -/
def Tree.run (t : Tree) (ops : List Op) : Tree :=
  ops.foldl Tree.apply t

/-- The nodes of a subtree in the order `inOrder` visits them. -/
def Node.inOrderNodes : Node → List Node
  | .null => []
  | .mk data left right => left.inOrderNodes ++ .mk data left right :: right.inOrderNodes

/-- The nodes of a subtree in the order `preOrder` visits them. -/
def Node.preOrderNodes : Node → List Node
  | .null => []
  | .mk data left right => .mk data left right :: (left.preOrderNodes ++ right.preOrderNodes)

/-- The nodes of a subtree in the order `postOrder` visits them. -/
def Node.postOrderNodes : Node → List Node
  | .null => []
  | .mk data left right => left.postOrderNodes ++ (right.postOrderNodes ++ [.mk data left right])

/-- One step down from a node: to its `left` or to its `right` field. -/
inductive Dir where
  | left : Dir
  | right : Dir
  deriving DecidableEq

/-- The reference found by following a path of fields from a node; `none`
when the path goes through `null`. -/
def Node.subtreeAt : Node → List Dir → Option Node
  | node, [] => some node
  | .null, _ :: _ => none
  | .mk _ left _, .left :: path => left.subtreeAt path
  | .mk _ _ right, .right :: path => right.subtreeAt path

/-- The key of the node at the end of a path; `none` when there is no node. -/
def Node.keyAt : Node → List Dir → Option Int
  | .null, _ => none
  | .mk data _ _, [] => some data
  | .mk _ left _, .left :: path => left.keyAt path
  | .mk _ _ right, .right :: path => right.keyAt path

/-- The tree in which the reference at the end of a path is replaced by
`new`, all else kept. -/
def Node.replaceAt : Node → List Dir → Node → Node
  | _, [], new => new
  | .null, _ :: _, _ => .null
  | .mk data left right, .left :: path, new => .mk data (left.replaceAt path new) right
  | .mk data left right, .right :: path, new => .mk data left (right.replaceAt path new)

/-- The BST property can be checked by evaluation. -/
instance IsBST.decidable : (node : Node) → Decidable (IsBST node)
  | .null => isTrue trivial
  | .mk data left right =>
    have := IsBST.decidable left
    have := IsBST.decidable right
    inferInstanceAs (Decidable (IsBST left ∧ IsBST right ∧
      (∀ x ∈ left.keys, x < data) ∧ (∀ x ∈ right.keys, data < x)))

/-- A tree of seven keys that `isBalanced` accepts and whose height is 3:
what the calls `insert(5)`, `insert(3)`, `insert(6)`, `insert(2)`, `insert(4)`,
`insert(7)`, `insert(1)` make of the empty tree. -/
def sparseBalancedTree : Tree :=
  { root := .mk 5 (.mk 3 (.mk 2 (.mk 1 .null .null) .null) (.mk 4 .null .null))
      (.mk 6 .null (.mk 7 .null .null)) }

/-! ### Node identity and `depth`

`depth` compares references (`current === node`).  Every node object of a tree
is the value of exactly one field, so an object of the tree is identified by
the path of fields leading to it from the root.  A reference passed to `depth`
is `some path` for the object at that path, and `none` for a reference that
leads to no object of the tree (`null`, a node that was removed, a node of
another tree); a path that ends at no object of the tree identifies none of its
objects either. -/

/-- The method `depth(node, current, depth)`.  `here` is the path of `current`
from the root, so that `current === node` is `node = some here`. -/
def depth (node : Option (List Dir)) : Node → List Dir → Int → Int
  | .null, _, _ => -1
  | .mk _ left right, here, depth =>
    if node = some here then depth
    else
      let leftDepth := BinarySearchTree.depth node left (here ++ [.left]) (depth + 1)
      if leftDepth ≠ -1 then leftDepth
      else BinarySearchTree.depth node right (here ++ [.right]) (depth + 1)

/-- The method `depth(node)` with `current` defaulting to `this.root` and
`depth` to 0. -/
def Tree.depth (t : Tree) (node : Option (List Dir)) : Int :=
  BinarySearchTree.depth node t.root [] 0

/-- A path ends at an object of class `Node`. -/
def Node.IsNodeAt (root : Node) (path : List Dir) : Prop :=
  ∃ data left right, root.subtreeAt path = some (.mk data left right)

/-- The nodes of a subtree at a given distance below its root, left to right. -/
def Node.level : Node → Nat → List Node
  | .null, _ => []
  | .mk data left right, 0 => [.mk data left right]
  | .mk _ left right, n + 1 => left.level n ++ right.level n

/-- The levels of a subtree one after the other, from its root down to its
deepest level. -/
def Node.levelOrderNodes (node : Node) : List Node :=
  (List.range (height node + 1).toNat).flatMap node.level

/-- The children of a node that `levelOrder` puts in the queue: the left one,
then the right one, each if it is not `null`. -/
def Node.children : Node → List Node
  | .null => []
  | .mk _ left right =>
    (if left ≠ .null then [left] else []) ++ (if right ≠ .null then [right] else [])

/-- The first `k` generations of a queue of nodes: the queue, then the
children of its nodes, then their children, and so on. -/
def generations : Nat → List Node → List Node
  | 0, _ => []
  | k + 1, queue => queue ++ generations k (queue.flatMap Node.children)

/-! ## Traversal lemmas -/

theorem inOrder_pushData (node : Node) (s : List Int) :
    inOrder (some pushData) node s = (.ok (), s ++ node.keys) := by
  induction node generalizing s with
  | null => simp [inOrder, Node.keys]
  | mk data left right ihl ihr =>
    simp [inOrder, ihl, ihr, pushData, Node.keys]

theorem inOrderKeys_eq (t : Tree) : t.inOrderKeys = t.root.keys := by
  simp [Tree.inOrderKeys, Tree.inOrder, inOrder_pushData]

theorem rebalance_root (t : Tree) : t.rebalance.root = buildTree t.root.keys := by
  simp [Tree.rebalance, Tree.inOrder, inOrder_pushData]

/-! ## The BST property and sorted key sequences -/

theorem isBST_iff_sorted (node : Node) : IsBST node ↔ node.keys.Sorted (· < ·) := by
  induction node with
  | null => simp [IsBST, Node.keys]
  | mk data left right ihl ihr =>
    simp only [IsBST, Node.keys, List.Sorted, List.pairwise_append, List.pairwise_cons,
      List.mem_cons] at *
    rw [ihl, ihr]
    constructor
    · rintro ⟨hl, hr, hlt, hgt⟩
      refine ⟨hl, ⟨hgt, hr⟩, ?_⟩
      intro a ha b hb
      rcases hb with rfl | hb
      · exact hlt a ha
      · exact lt_trans (hlt a ha) (hgt b hb)
    · rintro ⟨hl, ⟨hgt, hr⟩, h⟩
      exact ⟨hl, hr, fun a ha => h a ha data (Or.inl rfl), hgt⟩

theorem mem_keys_insertRec (node : Node) (value x : Int) :
    x ∈ (insertRec node value).keys ↔ x = value ∨ x ∈ node.keys := by
  induction node with
  | null => simp [insertRec, Node.keys]
  | mk data left right ihl ihr =>
    simp only [insertRec]
    split_ifs with h1 h2
    · simp only [Node.keys, List.mem_append, List.mem_cons, ihl]; tauto
    · simp only [Node.keys, List.mem_append, List.mem_cons, ihr]; tauto
    · have : value = data := by omega
      simp only [Node.keys, List.mem_append, List.mem_cons]; subst this; tauto

theorem isBST_insertRec (node : Node) (value : Int) (h : IsBST node) :
    IsBST (insertRec node value) := by
  induction node with
  | null => simp [insertRec, IsBST, Node.keys]
  | mk data left right ihl ihr =>
    obtain ⟨hl, hr, hlt, hgt⟩ := h
    simp only [insertRec]
    split_ifs with h1 h2
    · refine ⟨ihl hl, hr, ?_, hgt⟩
      intro x hx
      rcases (mem_keys_insertRec left value x).1 hx with rfl | hx
      · exact h1
      · exact hlt x hx
    · refine ⟨hl, ihr hr, hlt, ?_⟩
      intro x hx
      rcases (mem_keys_insertRec right value x).1 hx with rfl | hx
      · exact h2
      · exact hgt x hx
    · exact ⟨hl, hr, hlt, hgt⟩

theorem findMin_mk (data : Int) (left right : Node) :
    ∃ m mr rest, findMin (.mk data left right) = .mk m .null mr ∧
      (Node.mk data left right).keys = m :: rest := by
  induction left generalizing data right with
  | null => exact ⟨data, right, right.keys, by simp [findMin], by simp [Node.keys]⟩
  | mk d l r ihl _ =>
    obtain ⟨m, mr, rest, h1, h2⟩ := ihl d r
    refine ⟨m, mr, rest ++ data :: right.keys, ?_, ?_⟩
    · rw [findMin, h1]
    · rw [Node.keys, h2]; simp

theorem filter_ne_eq_self (l : List Int) (v : Int) (h : ∀ a ∈ l, a ≠ v) :
    l.filter (fun x => decide (x ≠ v)) = l := by
  rw [List.filter_eq_self]
  intro a ha
  exact decide_eq_true (h a ha)

theorem filter_ne_node (l r : List Int) (d v : Int) (h : d ≠ v) :
    (l ++ d :: r).filter (fun x => decide (x ≠ v)) =
      l.filter (fun x => decide (x ≠ v)) ++ d :: r.filter (fun x => decide (x ≠ v)) := by
  rw [List.filter_append, List.filter_cons_of_pos (p := fun x => decide (x ≠ v)) (decide_eq_true h)]

theorem filter_ne_node_self (l r : List Int) (d : Int) :
    (l ++ d :: r).filter (fun x => decide (x ≠ d)) =
      l.filter (fun x => decide (x ≠ d)) ++ r.filter (fun x => decide (x ≠ d)) := by
  rw [List.filter_append, List.filter_cons_of_neg (p := fun x => decide (x ≠ d)) (by simp)]

theorem keys_deleteRec (node : Node) (value : Int) (h : IsBST node) :
    (deleteRec node value).keys = node.keys.filter (fun x => decide (x ≠ value)) := by
  induction node generalizing value with
  | null => simp [deleteRec, Node.keys]
  | mk data left right ihl ihr =>
    obtain ⟨hl, hr, hlt, hgt⟩ := h
    simp only [deleteRec]
    split_ifs with h1 h2 h3 h4
    · rw [Node.keys, Node.keys, ihl value hl, filter_ne_node _ _ _ _ (by omega),
        filter_ne_eq_self right.keys value (fun a ha => by have := hgt a ha; omega)]
    · rw [Node.keys, Node.keys, ihr value hr, filter_ne_node _ _ _ _ (by omega),
        filter_ne_eq_self left.keys value (fun a ha => by have := hlt a ha; omega)]
    · have he : data = value := by omega
      subst he h3
      rw [Node.keys, filter_ne_node_self,
        filter_ne_eq_self right.keys data (fun a ha => by have := hgt a ha; omega)]
      simp [Node.keys]
    · have he : data = value := by omega
      subst he h4
      rw [Node.keys, filter_ne_node_self,
        filter_ne_eq_self left.keys data (fun a ha => by have := hlt a ha; omega)]
      simp [Node.keys]
    · have he : data = value := by omega
      subst he
      cases right with
      | null => exact absurd rfl h4
      | mk rd rl rr =>
        obtain ⟨m, mr, rest, hm, hk⟩ := findMin_mk rd rl rr
        rw [hm]
        have hsorted := (isBST_iff_sorted _).1 hr
        rw [hk] at hsorted hgt
        have hrest : ∀ a ∈ rest, m < a := (List.sorted_cons.1 hsorted).1
        have hmd : data < m := hgt m (List.mem_cons_self _ _)
        show (Node.mk m left (deleteRec (.mk rd rl rr) m)).keys = _
        have e1 : (m :: rest).filter (fun x => decide (x ≠ m)) = rest := by
          rw [List.filter_cons_of_neg (p := fun x => decide (x ≠ m)) (by simp)]
          exact filter_ne_eq_self rest m (fun a ha => by have := hrest a ha; omega)
        have e2 : (m :: rest).filter (fun x => decide (x ≠ data)) = m :: rest :=
          filter_ne_eq_self _ data (fun a ha => by have := hgt a ha; omega)
        rw [Node.keys, ihr m hr, hk, e1]
        rw [Node.keys, hk, filter_ne_node_self, e2,
          filter_ne_eq_self left.keys data (fun a ha => by have := hlt a ha; omega)]

theorem isBST_deleteRec (node : Node) (value : Int) (h : IsBST node) :
    IsBST (deleteRec node value) := by
  rw [isBST_iff_sorted, keys_deleteRec node value h]
  exact ((isBST_iff_sorted node).1 h).filter _

theorem findRec_eq_null (node : Node) (value : Int) (h : IsBST node)
    (hv : value ∉ node.keys) : findRec node value = .null := by
  induction node with
  | null => rfl
  | mk data left right ihl ihr =>
    obtain ⟨hl, hr, _, _⟩ := h
    simp only [Node.keys, List.mem_append, List.mem_cons, not_or] at hv
    obtain ⟨hvl, hvd, hvr⟩ := hv
    simp only [findRec]
    split_ifs with h1 h2
    · exact absurd h1.symm hvd
    · exact ihl hl hvl
    · exact ihr hr hvr

/-! ## Construction lemmas -/

theorem sortedArrayToBST_empty (array : List Int) (s : Nat) :
    sortedArrayToBST array s ((s : Int) + (0 : Nat) - 1) = .null := by
  rw [sortedArrayToBST, if_pos (by omega)]

theorem sortedArrayToBST_step (array : List Int) (s n : Nat) (hn : 0 < n) :
    sortedArrayToBST array s ((s : Int) + n - 1) =
      .mk (arrayAt array ((s + (n - 1) / 2 : Nat) : Int))
        (sortedArrayToBST array s ((s : Int) + ((n - 1) / 2 : Nat) - 1))
        (sortedArrayToBST array ((s + (n - 1) / 2 + 1 : Nat) : Int)
          (((s + (n - 1) / 2 + 1 : Nat) : Int) + (n / 2 : Nat) - 1)) := by
  rw [sortedArrayToBST, if_neg (by omega)]
  have e1 : ((s : Int) + ((s : Int) + n - 1)) / 2 = ((s + (n - 1) / 2 : Nat) : Int) := by omega
  have e2 : ((s + (n - 1) / 2 : Nat) : Int) - 1 = (s : Int) + ((n - 1) / 2 : Nat) - 1 := by omega
  have e3 : ((s + (n - 1) / 2 : Nat) : Int) + 1 = ((s + (n - 1) / 2 + 1 : Nat) : Int) := by omega
  have e4 : (s : Int) + n - 1 = ((s + (n - 1) / 2 + 1 : Nat) : Int) + (n / 2 : Nat) - 1 := by
    omega
  simp only [e1, e2, e3]
  rw [← e4]
theorem take_split (l : List Int) (a b : Nat) (h : a < l.length) :
    l.take (a + 1 + b) = l.take a ++ l.getD a 0 :: (l.drop (a + 1)).take b := by
  rw [add_assoc, List.take_add, List.drop_eq_getElem_cons h, add_comm 1 b, List.take_succ_cons,
    List.getD_eq_getElem _ _ h]

theorem arrayAt_natCast (array : List Int) (i : Nat) : arrayAt array (i : Int) = array.getD i 0 := by
  simp [arrayAt]

theorem keys_sortedArrayToBST (array : List Int) (n s : Nat) (h : s + n ≤ array.length) :
    (sortedArrayToBST array s ((s : Int) + n - 1)).keys = (array.drop s).take n := by
  induction n using Nat.strong_induction_on generalizing s with
  | _ n ih =>
    rcases Nat.eq_zero_or_pos n with rfl | hn
    · rw [sortedArrayToBST_empty]; simp [Node.keys]
    · rw [sortedArrayToBST_step array s n hn, Node.keys,
        ih ((n - 1) / 2) (by omega) s (by omega),
        ih (n / 2) (by omega) (s + (n - 1) / 2 + 1) (by omega), arrayAt_natCast]
      have hn' : n = (n - 1) / 2 + 1 + n / 2 := by omega
      conv_rhs => rw [hn']
      rw [take_split _ _ _ (by simp; omega)]
      simp [List.getD_eq_getElem?_getD, List.getElem?_drop, add_comm, add_left_comm]

theorem newSet_fold (array seen : List Int) (hs : seen.Nodup) :
    (array.foldl (fun seen x => if x ∈ seen then seen else seen ++ [x]) seen).Nodup ∧
      ∀ x, x ∈ array.foldl (fun seen x => if x ∈ seen then seen else seen ++ [x]) seen ↔
        x ∈ seen ∨ x ∈ array := by
  induction array generalizing seen with
  | nil => simp [hs]
  | cons a as ih =>
    simp only [List.foldl_cons]
    split_ifs with h
    · obtain ⟨h1, h2⟩ := ih seen hs
      refine ⟨h1, fun x => ?_⟩
      rw [h2, List.mem_cons]
      constructor
      · rintro (hx | hx)
        · exact Or.inl hx
        · exact Or.inr (Or.inr hx)
      · rintro (hx | rfl | hx)
        · exact Or.inl hx
        · exact Or.inl h
        · exact Or.inr hx
    · have hs' : (seen ++ [a]).Nodup := by
        rw [List.nodup_append]
        refine ⟨hs, List.nodup_singleton a, ?_⟩
        intro x hx hx'
        rw [List.mem_singleton] at hx'
        subst hx'
        exact h hx
      obtain ⟨h1, h2⟩ := ih (seen ++ [a]) hs'
      refine ⟨h1, fun x => ?_⟩
      rw [h2, List.mem_append, List.mem_singleton, List.mem_cons]
      tauto

theorem nodup_newSet (array : List Int) : (newSet array).Nodup :=
  (newSet_fold array [] List.nodup_nil).1

theorem mem_newSet (array : List Int) (x : Int) : x ∈ newSet array ↔ x ∈ array := by
  simpa using (newSet_fold array [] List.nodup_nil).2 x

theorem sorted_lt_sort_newSet (array : List Int) :
    (sort (newSet array)).Sorted (· < ·) := by
  have h1 : (sort (newSet array)).Sorted (· ≤ ·) := List.sorted_insertionSort _ _
  have h2 : (sort (newSet array)).Nodup :=
    (List.perm_insertionSort _ _).nodup_iff.2 (nodup_newSet array)
  exact h1.lt_of_le h2

theorem mem_sort_newSet (array : List Int) (x : Int) :
    x ∈ sort (newSet array) ↔ x ∈ array := by
  rw [sort, (List.perm_insertionSort _ _).mem_iff, mem_newSet]

theorem keys_buildTree (array : List Int) : (buildTree array).keys = sort (newSet array) := by
  have h := keys_sortedArrayToBST (sort (newSet array)) (sort (newSet array)).length 0 (by simp)
  simpa [buildTree] using h

theorem isBST_buildTree (array : List Int) : IsBST (buildTree array) := by
  rw [isBST_iff_sorted, keys_buildTree]
  exact sorted_lt_sort_newSet array

theorem sort_newSet_of_sorted (l : List Int) (h : l.Sorted (· < ·)) : sort (newSet l) = l := by
  apply List.eq_of_perm_of_sorted (r := (· < ·)) _ (sorted_lt_sort_newSet l) h
  apply (List.perm_ext_iff_of_nodup _ h.nodup).2
  · intro x; exact mem_sort_newSet l x
  · exact (sorted_lt_sort_newSet l).nodup

theorem isBST_run (t : Tree) (ops : List Op) (h : IsBST t.root) : IsBST (t.run ops).root := by
  induction ops generalizing t with
  | nil => exact h
  | cons op ops ih =>
    apply ih
    cases op with
    | insert value => exact isBST_insertRec _ _ h
    | deleteItem value => exact isBST_deleteRec _ _ h

/-! ## Height and balance of built trees -/

theorem clog_succ_halve (n : Nat) (hn : 0 < n) :
    Nat.clog 2 (n + 1) = Nat.clog 2 (n / 2 + 1) + 1 := by
  rw [Nat.clog_of_two_le (by omega) (by omega)]
  congr 2
  omega

theorem clog_double (m : Nat) (hm : 0 < m) : Nat.clog 2 (2 * m) = Nat.clog 2 m + 1 := by
  rw [Nat.clog_of_two_le (by omega) (by omega)]
  congr 2
  omega

theorem height_sortedArrayToBST (array : List Int) (n s : Nat) :
    height (sortedArrayToBST array s ((s : Int) + n - 1)) = (Nat.clog 2 (n + 1) : Int) - 1 := by
  induction n using Nat.strong_induction_on generalizing s with
  | _ n ih =>
    rcases Nat.eq_zero_or_pos n with rfl | hn
    · rw [sortedArrayToBST_empty]; simp [height]
    · rw [sortedArrayToBST_step array s n hn, height,
        ih ((n - 1) / 2) (by omega) s, ih (n / 2) (by omega) (s + (n - 1) / 2 + 1),
        clog_succ_halve n hn]
      have hmono : Nat.clog 2 ((n - 1) / 2 + 1) ≤ Nat.clog 2 (n / 2 + 1) :=
        Nat.clog_mono_right 2 (by omega)
      rw [max_eq_right (by omega)]
      push_cast
      ring

theorem isBalanced_sortedArrayToBST (array : List Int) (n s : Nat) :
    isBalanced (sortedArrayToBST array s ((s : Int) + n - 1)) = true := by
  induction n using Nat.strong_induction_on generalizing s with
  | _ n ih =>
    rcases Nat.eq_zero_or_pos n with rfl | hn
    · rw [sortedArrayToBST_empty]; rfl
    · rw [sortedArrayToBST_step array s n hn, isBalanced,
        ih ((n - 1) / 2) (by omega) s, ih (n / 2) (by omega) (s + (n - 1) / 2 + 1),
        height_sortedArrayToBST, height_sortedArrayToBST]
      have hmono : Nat.clog 2 ((n - 1) / 2 + 1) ≤ Nat.clog 2 (n / 2 + 1) :=
        Nat.clog_mono_right 2 (by omega)
      have hup : Nat.clog 2 (n / 2 + 1) ≤ Nat.clog 2 ((n - 1) / 2 + 1) + 1 := by
        rw [← clog_double _ (by omega)]
        exact Nat.clog_mono_right 2 (by omega)
      simp only [Bool.and_true, decide_eq_true_eq]
      omega

theorem height_buildTree (array : List Int) :
    height (buildTree array) = (Nat.clog 2 ((sort (newSet array)).length + 1) : Int) - 1 := by
  have h := height_sortedArrayToBST (sort (newSet array)) (sort (newSet array)).length 0
  simpa [buildTree] using h

theorem isBalanced_buildTree (array : List Int) : isBalanced (buildTree array) = true := by
  have h := isBalanced_sortedArrayToBST (sort (newSet array)) (sort (newSet array)).length 0
  simpa [buildTree] using h

theorem length_sort_newSet (array : List Int) :
    (sort (newSet array)).length = array.toFinset.card := by
  rw [sort, List.length_insertionSort, ← List.toFinset_card_of_nodup (nodup_newSet array)]
  congr 1
  ext x
  simp [mem_newSet]

theorem length_keys (node : Node) : node.keys.length = node.size := by
  induction node with
  | null => rfl
  | mk data left right ihl ihr => simp [Node.keys, Node.size, ihl, ihr]; omega

theorem neg_one_le_height (node : Node) : -1 ≤ height node := by
  induction node with
  | null => simp [height]
  | mk data left right ihl ihr => simp only [height]; omega

theorem size_lt_two_pow_height (node : Node) :
    node.size + 1 ≤ 2 ^ (height node + 1).toNat := by
  induction node with
  | null => simp [height, Node.size]
  | mk data left right ihl ihr =>
    have hl := neg_one_le_height left
    have hr := neg_one_le_height right
    have e : (height (.mk data left right) + 1).toNat =
        max (height left + 1).toNat (height right + 1).toNat + 1 := by
      simp only [height]; omega
    rw [e, pow_succ, Node.size]
    have h1 : 2 ^ (height left + 1).toNat ≤
        2 ^ max (height left + 1).toNat (height right + 1).toNat :=
      Nat.pow_le_pow_right (by omega) (le_max_left _ _)
    have h2 : 2 ^ (height right + 1).toNat ≤
        2 ^ max (height left + 1).toNat (height right + 1).toNat :=
      Nat.pow_le_pow_right (by omega) (le_max_right _ _)
    omega

theorem clog_size_le_height (node : Node) :
    (Nat.clog 2 (node.size + 1) : Int) - 1 ≤ height node := by
  have h := (Nat.le_pow_iff_clog_le (by omega : 1 < 2)).1 (size_lt_two_pow_height node)
  have := neg_one_le_height node
  omega

/-! ## Traversals with and without a callback -/

theorem inOrder_some {σ : Type} (cb : σ → Node → σ) (node : Node) (s : σ) :
    inOrder (some cb) node s = (.ok (), node.inOrderNodes.foldl cb s) := by
  induction node generalizing s with
  | null => simp [inOrder, Node.inOrderNodes]
  | mk data left right ihl ihr =>
    simp [inOrder, ihl, ihr, Node.inOrderNodes]

theorem preOrder_some {σ : Type} (cb : σ → Node → σ) (node : Node) (s : σ) :
    preOrder (some cb) node s = (.ok (), node.preOrderNodes.foldl cb s) := by
  induction node generalizing s with
  | null => simp [preOrder, Node.preOrderNodes]
  | mk data left right ihl ihr =>
    simp [preOrder, ihl, ihr, Node.preOrderNodes]

theorem postOrder_some {σ : Type} (cb : σ → Node → σ) (node : Node) (s : σ) :
    postOrder (some cb) node s = (.ok (), node.postOrderNodes.foldl cb s) := by
  induction node generalizing s with
  | null => simp [postOrder, Node.postOrderNodes]
  | mk data left right ihl ihr =>
    simp [postOrder, ihl, ihr, Node.postOrderNodes]

theorem levelOrderLoop_ne_callbackRequired {σ : Type} (cb : σ → Node → σ) (n : Nat) :
    ∀ (queue : List Node) (s : σ), (queue.map Node.size).sum = n →
      (levelOrderLoop cb queue s).1 ≠ .error .callbackRequired := by
  induction n using Nat.strong_induction_on with
  | _ n ih =>
    intro queue s hn
    match queue with
    | [] => simp [levelOrderLoop]
    | .null :: rest => simp [levelOrderLoop]
    | .mk data left right :: rest =>
      rw [levelOrderLoop]
      refine ih _ ?_ _ _ rfl
      subst hn
      split_ifs <;> simp [Node.size] <;> omega

/-! ## Insertion lemmas -/

theorem insertRec_of_mem (node : Node) (value : Int) (h : IsBST node)
    (hv : value ∈ node.keys) : insertRec node value = node := by
  induction node with
  | null => simp [Node.keys] at hv
  | mk data left right ihl ihr =>
    obtain ⟨hl, hr, hlt, hgt⟩ := h
    simp only [Node.keys, List.mem_append, List.mem_cons] at hv
    simp only [insertRec]
    split_ifs with h1 h2
    · rcases hv with hv | hv | hv
      · rw [ihl hl hv]
      · omega
      · have := hgt value hv; omega
    · rcases hv with hv | hv | hv
      · have := hlt value hv; omega
      · omega
      · rw [ihr hr hv]
    · rfl

theorem orderedInsert_cons_eq (v a : Int) (l : List Int) :
    (a :: l).orderedInsert (· ≤ ·) v =
      if v ≤ a then v :: a :: l else a :: l.orderedInsert (· ≤ ·) v :=
  rfl

theorem orderedInsert_append_le (l r : List Int) (d v : Int) (h : v ≤ d) :
    (l ++ d :: r).orderedInsert (· ≤ ·) v = l.orderedInsert (· ≤ ·) v ++ d :: r := by
  induction l with
  | nil => simp [List.orderedInsert, h]
  | cons a l ih =>
    rw [List.cons_append, orderedInsert_cons_eq, orderedInsert_cons_eq]
    split_ifs
    · rfl
    · rw [ih]; rfl

theorem orderedInsert_append_gt (l r : List Int) (d v : Int) (hl : ∀ a ∈ l, a < v)
    (h : d < v) :
    (l ++ d :: r).orderedInsert (· ≤ ·) v = l ++ d :: r.orderedInsert (· ≤ ·) v := by
  induction l with
  | nil => simp [List.orderedInsert, not_le.2 h]
  | cons a l ih =>
    have ha : ¬ v ≤ a := not_le.2 (hl a (List.mem_cons_self _ _))
    rw [List.cons_append, orderedInsert_cons_eq, if_neg ha,
      ih (fun x hx => hl x (List.mem_cons_of_mem _ hx))]
    rfl

theorem keys_insertRec (node : Node) (value : Int) (h : IsBST node)
    (hv : value ∉ node.keys) :
    (insertRec node value).keys = node.keys.orderedInsert (· ≤ ·) value := by
  induction node with
  | null => simp [insertRec, Node.keys]
  | mk data left right ihl ihr =>
    obtain ⟨hl, hr, hlt, hgt⟩ := h
    simp only [Node.keys, List.mem_append, List.mem_cons, not_or] at hv
    obtain ⟨hvl, hvd, hvr⟩ := hv
    simp only [insertRec]
    split_ifs with h1 h2
    · rw [Node.keys, Node.keys, ihl hl hvl, orderedInsert_append_le _ _ _ _ (le_of_lt h1)]
    · rw [Node.keys, Node.keys, ihr hr hvr,
        orderedInsert_append_gt _ _ _ _ (fun a ha => lt_trans (hlt a ha) h2) h2]
    · omega

theorem insertRec_eq_replaceAt (node : Node) (value : Int) (hv : value ∉ node.keys) :
    ∃ path, node.subtreeAt path = some .null ∧
      insertRec node value = node.replaceAt path (.mk value .null .null) ∧
      (insertRec node value).subtreeAt path = some (.mk value .null .null) := by
  induction node with
  | null => exact ⟨[], rfl, rfl, rfl⟩
  | mk data left right ihl ihr =>
    simp only [Node.keys, List.mem_append, List.mem_cons, not_or] at hv
    obtain ⟨hvl, hvd, hvr⟩ := hv
    simp only [insertRec]
    split_ifs with h1 h2
    · obtain ⟨path, p1, p2, p3⟩ := ihl hvl
      exact ⟨.left :: path, by simpa [Node.subtreeAt] using p1,
        by simp [Node.replaceAt, ← p2], by simpa [Node.subtreeAt] using p3⟩
    · obtain ⟨path, p1, p2, p3⟩ := ihr hvr
      exact ⟨.right :: path, by simpa [Node.subtreeAt] using p1,
        by simp [Node.replaceAt, ← p2], by simpa [Node.subtreeAt] using p3⟩
    · omega

theorem keyAt_insertRec (node : Node) (value : Int) (path : List Dir) (d : Int)
    (h : node.keyAt path = some d) : (insertRec node value).keyAt path = some d := by
  induction node generalizing path with
  | null => simp [Node.keyAt] at h
  | mk data left right ihl ihr =>
    simp only [insertRec]
    split_ifs with h1 h2
    · match path with
      | [] => simpa [Node.keyAt] using h
      | .left :: path => exact ihl path (by simpa [Node.keyAt] using h)
      | .right :: path => simpa [Node.keyAt] using h
    · match path with
      | [] => simpa [Node.keyAt] using h
      | .left :: path => simpa [Node.keyAt] using h
      | .right :: path => exact ihr path (by simpa [Node.keyAt] using h)
    · exact h

theorem size_insertRec (node : Node) (value : Int) (hv : value ∉ node.keys) :
    (insertRec node value).size = node.size + 1 := by
  induction node with
  | null => simp [insertRec, Node.size]
  | mk data left right ihl ihr =>
    simp only [Node.keys, List.mem_append, List.mem_cons, not_or] at hv
    obtain ⟨hvl, hvd, hvr⟩ := hv
    simp only [insertRec]
    split_ifs with h1 h2
    · simp only [Node.size, ihl hvl]; omega
    · simp only [Node.size, ihr hvr]; omega
    · omega

/-! ## Concrete trees -/

theorem buildTree_nil : buildTree [] = .null := by
  simp [buildTree, sort, newSet, sortedArrayToBST]

theorem buildTree_one_to_seven :
    buildTree [1, 2, 3, 4, 5, 6, 7] =
      .mk 4 (.mk 2 (.mk 1 .null .null) (.mk 3 .null .null))
        (.mk 6 (.mk 5 .null .null) (.mk 7 .null .null)) := by
  simp [buildTree, sort, newSet, sortedArrayToBST, arrayAt]

theorem buildTree_pi_digits :
    buildTree [3, 1, 4, 1, 5, 9, 2, 6] =
      .mk 4 (.mk 2 (.mk 1 .null .null) (.mk 3 .null .null))
        (.mk 6 (.mk 5 .null .null) (.mk 9 .null .null)) := by
  simp [buildTree, sort, newSet, sortedArrayToBST, arrayAt]


/-! ## The claims -/

/-- C1: for every list of keys and every finite sequence of `insert` and
`deleteItem` calls on the tree built from it, the in-order key sequence of the
resulting tree is strictly ascending, hence without a repeated key. -/
theorem C1_inOrder_strictly_ascending (keys : List Int) (ops : List Op) :
    ((Tree.new keys).run ops).inOrderKeys.Sorted (· < ·) ∧
      ((Tree.new keys).run ops).inOrderKeys.Nodup := by
  have h : IsBST ((Tree.new keys).run ops).root := isBST_run _ ops (isBST_buildTree keys)
  rw [inOrderKeys_eq]
  exact ⟨(isBST_iff_sorted _).1 h, ((isBST_iff_sorted _).1 h).nodup⟩

/-- C2: on a tree with the BST property that holds the key `k`, after
`deleteItem(k)` the call `find(k)` returns `null` and the in-order key sequence
is the former one with `k` removed; the tree built from `[1,2,3,4,5,6,7]` has
the in-order sequence `[1,2,3,5,6,7]` after `deleteItem(4)`. -/
theorem C2_delete_roundtrip :
    (∀ (t : Tree) (k : Int), IsBST t.root → k ∈ t.inOrderKeys →
      (t.deleteItem k).find k = .null ∧
        (t.deleteItem k).inOrderKeys = t.inOrderKeys.erase k) ∧
    ((Tree.new [1, 2, 3, 4, 5, 6, 7]).deleteItem 4).inOrderKeys = [1, 2, 3, 5, 6, 7] := by
  constructor
  · intro t k h _
    have hk : (deleteRec t.root k).keys = t.root.keys.filter (fun x => decide (x ≠ k)) :=
      keys_deleteRec t.root k h
    constructor
    · apply findRec_eq_null _ _ (isBST_deleteRec _ _ h)
      show k ∉ (deleteRec t.root k).keys
      rw [hk]
      simp
    · rw [inOrderKeys_eq, inOrderKeys_eq, ((isBST_iff_sorted _).1 h).nodup.erase_eq_filter]
      show (deleteRec t.root k).keys = _
      rw [hk]
      apply List.filter_congr
      intro x _
      by_cases hx : x = k <;> simp [hx]
  · rw [inOrderKeys_eq]
    show (deleteRec (buildTree [1, 2, 3, 4, 5, 6, 7]) 4).keys = _
    rw [buildTree_one_to_seven]
    decide

/-- C2, at the tree built from `[1,2,3,4,5,6,7]` and the key 4. -/
theorem C2_delete_roundtrip_witness :
    IsBST (Tree.new [1, 2, 3, 4, 5, 6, 7]).root ∧
      (4 : Int) ∈ (Tree.new [1, 2, 3, 4, 5, 6, 7]).inOrderKeys ∧
      ((Tree.new [1, 2, 3, 4, 5, 6, 7]).deleteItem 4).find 4 = .null ∧
      ((Tree.new [1, 2, 3, 4, 5, 6, 7]).deleteItem 4).inOrderKeys =
        (Tree.new [1, 2, 3, 4, 5, 6, 7]).inOrderKeys.erase 4 :=
  have h1 : IsBST (Tree.new [1, 2, 3, 4, 5, 6, 7]).root := isBST_buildTree _
  have h2 : (4 : Int) ∈ (Tree.new [1, 2, 3, 4, 5, 6, 7]).inOrderKeys := by
    rw [inOrderKeys_eq]
    show (4 : Int) ∈ (buildTree [1, 2, 3, 4, 5, 6, 7]).keys
    rw [buildTree_one_to_seven]
    decide
  ⟨h1, h2, C2_delete_roundtrip.1 _ 4 h1 h2⟩

/-- C3: the in-order key sequence of the tree built from a list is the list
deduplicated and sorted ascending: strictly ascending, holding exactly the keys
of the input, equal to the sorted enumeration of the input's key set; the tree
built from the empty list has the root `null`. -/
theorem C3_buildTree_inOrder (array : List Int) :
    (Tree.new array).inOrderKeys.Sorted (· < ·) ∧
      (∀ x, x ∈ (Tree.new array).inOrderKeys ↔ x ∈ array) ∧
      (Tree.new array).inOrderKeys = array.toFinset.sort (· ≤ ·) ∧
      (Tree.new []).root = .null := by
  have hk : (Tree.new array).inOrderKeys = sort (newSet array) := by
    rw [inOrderKeys_eq]; exact keys_buildTree array
  rw [hk]
  refine ⟨sorted_lt_sort_newSet array, mem_sort_newSet array, ?_, buildTree_nil⟩
  apply List.eq_of_perm_of_sorted (r := (· ≤ ·)) _ (List.sorted_insertionSort _ _)
    (Finset.sort_sorted _ _)
  apply (List.perm_ext_iff_of_nodup (sorted_lt_sort_newSet array).nodup
    (Finset.sort_nodup _ _)).2
  intro x
  rw [mem_sort_newSet, Finset.mem_sort, List.mem_toFinset]

/-- C4: with `n` the number of distinct keys of the input, the height of the
built tree is `ceil(log2(n+1)) - 1`: it is -1 when `n = 0`, and otherwise the
`h` with `2^h ≤ n < 2^(h+1)`; `[3,1,4,1,5,9,2,6]` has 7 distinct keys and its
tree has height 2. -/
theorem C4_height_buildTree :
    (∀ array : List Int,
      height (Tree.new array).root = (Nat.clog 2 (array.toFinset.card + 1) : Int) - 1 ∧
      (array.toFinset.card = 0 → height (Tree.new array).root = -1) ∧
      (∀ h : Nat, 2 ^ h ≤ array.toFinset.card → array.toFinset.card < 2 ^ (h + 1) →
        height (Tree.new array).root = h)) ∧
    (([3, 1, 4, 1, 5, 9, 2, 6] : List Int).toFinset.card = 7 ∧
      height (Tree.new [3, 1, 4, 1, 5, 9, 2, 6]).root = 2) := by
  constructor
  · intro array
    have hh : height (Tree.new array).root =
        (Nat.clog 2 (array.toFinset.card + 1) : Int) - 1 := by
      rw [← length_sort_newSet]; exact height_buildTree array
    refine ⟨hh, ?_, ?_⟩
    · intro h0
      rw [hh, h0]
      simp
    · intro h h1 h2
      rw [hh]
      have e : Nat.clog 2 (array.toFinset.card + 1) = h + 1 := by
        apply le_antisymm
        · exact (Nat.le_pow_iff_clog_le (by omega)).1 (by omega)
        · exact (Nat.pow_lt_iff_lt_clog (by omega)).1 (by omega)
      rw [e]
      push_cast
      ring
  · refine ⟨by decide, ?_⟩
    show height (buildTree [3, 1, 4, 1, 5, 9, 2, 6]) = 2
    rw [buildTree_pi_digits]
    decide

/-- C4, at the input `[3,1,4,1,5,9,2,6]`: 7 distinct keys, `2^2 ≤ 7 < 2^3`,
height 2. -/
theorem C4_height_buildTree_witness :
    2 ^ 2 ≤ ([3, 1, 4, 1, 5, 9, 2, 6] : List Int).toFinset.card ∧
      ([3, 1, 4, 1, 5, 9, 2, 6] : List Int).toFinset.card < 2 ^ (2 + 1) ∧
      height (Tree.new [3, 1, 4, 1, 5, 9, 2, 6]).root = (2 : Nat) :=
  ⟨by decide, by decide,
    (C4_height_buildTree.1 [3, 1, 4, 1, 5, 9, 2, 6]).2.2 2 (by decide) (by decide)⟩

/-- C5: on every tree reached from a built tree by `insert` and `deleteItem`
calls, after `rebalance()` the call `isBalanced()` returns true and the
in-order key sequence is the one before `rebalance()`. -/
theorem C5_rebalance_balanced (keys : List Int) (ops : List Op) :
    ((Tree.new keys).run ops).rebalance.isBalanced = true ∧
      ((Tree.new keys).run ops).rebalance.inOrderKeys =
        ((Tree.new keys).run ops).inOrderKeys := by
  have h : IsBST ((Tree.new keys).run ops).root := isBST_run _ ops (isBST_buildTree keys)
  constructor
  · show isBalanced ((Tree.new keys).run ops).rebalance.root = true
    rw [rebalance_root]
    exact isBalanced_buildTree _
  · rw [inOrderKeys_eq, inOrderKeys_eq, rebalance_root, keys_buildTree]
    exact sort_newSet_of_sorted _ ((isBST_iff_sorted _).1 h)

/-- C6 fails as stated: `sparseBalancedTree`, which seven `insert` calls make
of the empty tree, has the BST property, `isBalanced()` returns true on it and
its height is 3, yet after `rebalance()` the height is 2. -/
theorem C6_height_changes :
    sparseBalancedTree = (Tree.new []).run [.insert 5, .insert 3, .insert 6, .insert 2,
        .insert 4, .insert 7, .insert 1] ∧
      IsBST sparseBalancedTree.root ∧ sparseBalancedTree.isBalanced = true ∧
      height sparseBalancedTree.root = 3 ∧ height sparseBalancedTree.rebalance.root = 2 ∧
      ¬ height sparseBalancedTree.rebalance.root = height sparseBalancedTree.root := by
  have hr : height sparseBalancedTree.rebalance.root = 2 := by
    rw [rebalance_root]
    show height (buildTree [1, 2, 3, 4, 5, 6, 7]) = 2
    rw [buildTree_one_to_seven]
    decide
  refine ⟨?_, by decide, by decide, by decide, hr, ?_⟩
  · show sparseBalancedTree = (Tree.mk (buildTree [])).run _
    rw [buildTree_nil]
    decide
  · rw [hr]
    decide

/-- C6, amended: on a tree with the BST property on which `isBalanced()`
returns true, after `rebalance()` the in-order key sequence is the one before,
the height is at most the height before, and a second `rebalance()` leaves the
tree as the first one made it. -/
theorem C6_rebalance_balanced_tree (t : Tree) (h : IsBST t.root)
    (_hb : t.isBalanced = true) :
    t.rebalance.inOrderKeys = t.inOrderKeys ∧
      height t.rebalance.root ≤ height t.root ∧
      t.rebalance.rebalance = t.rebalance := by
  have hs : sort (newSet t.root.keys) = t.root.keys :=
    sort_newSet_of_sorted _ ((isBST_iff_sorted _).1 h)
  have hk : t.rebalance.root.keys = t.root.keys := by
    rw [rebalance_root, keys_buildTree, hs]
  refine ⟨?_, ?_, ?_⟩
  · rw [inOrderKeys_eq, inOrderKeys_eq, hk]
  · rw [rebalance_root, height_buildTree, hs, length_keys]
    exact clog_size_le_height t.root
  · have e : t.rebalance.rebalance.root = t.rebalance.root := by
      rw [rebalance_root t.rebalance, hk, rebalance_root]
    cases h1 : t.rebalance.rebalance with
    | mk r1 =>
      cases h2 : t.rebalance with
      | mk r2 =>
        rw [h1, h2] at e
        exact congrArg Tree.mk e

/-- C6, amended, at `sparseBalancedTree`. -/
theorem C6_rebalance_balanced_tree_witness :
    IsBST sparseBalancedTree.root ∧ sparseBalancedTree.isBalanced = true ∧
      sparseBalancedTree.rebalance.inOrderKeys = sparseBalancedTree.inOrderKeys ∧
      height sparseBalancedTree.rebalance.root ≤ height sparseBalancedTree.root ∧
      sparseBalancedTree.rebalance.rebalance = sparseBalancedTree.rebalance :=
  ⟨by decide, by decide, C6_rebalance_balanced_tree sparseBalancedTree (by decide) (by decide)⟩

/-- C7 fails on the code: on the tree built from the empty list `levelOrder`
with a callback puts the `null` root in the queue, calls the callback on it
once and raises a TypeError on reading `currentNode.left`. -/
theorem C7_levelOrder_empty_tree {σ : Type} (cb : σ → Node → σ) (s : σ) :
    (Tree.new []).levelOrder (some cb) s = (.error .typeError, cb s .null) := by
  show levelOrderLoop cb [buildTree []] s = _
  rw [buildTree_nil, levelOrderLoop]

/-- C8: on every tree each of `levelOrder`, `inOrder`, `preOrder` and
`postOrder` called without a callback raises the callback error with no
callback call made; called with a callback, none of them raises that error. -/
theorem C8_callback_required {σ : Type} (t : Tree) (s : σ) :
    (t.levelOrder none s = (.error .callbackRequired, s) ∧
      t.inOrder none s = (.error .callbackRequired, s) ∧
      t.preOrder none s = (.error .callbackRequired, s) ∧
      t.postOrder none s = (.error .callbackRequired, s)) ∧
    ∀ cb : σ → Node → σ,
      (t.levelOrder (some cb) s).1 ≠ .error .callbackRequired ∧
      (t.inOrder (some cb) s).1 ≠ .error .callbackRequired ∧
      (t.preOrder (some cb) s).1 ≠ .error .callbackRequired ∧
      (t.postOrder (some cb) s).1 ≠ .error .callbackRequired := by
  refine ⟨⟨rfl, ?_, ?_, ?_⟩, fun cb => ⟨?_, ?_, ?_, ?_⟩⟩
  · cases h : t.root <;> simp [Tree.inOrder, inOrder, h]
  · cases h : t.root <;> simp [Tree.preOrder, preOrder, h]
  · cases h : t.root <;> simp [Tree.postOrder, postOrder, h]
  · exact levelOrderLoop_ne_callbackRequired cb _ _ s rfl
  · simp [Tree.inOrder, inOrder_some]
  · simp [Tree.preOrder, preOrder_some]
  · simp [Tree.postOrder, postOrder_some]

/-- C9: on a tree with the BST property, `insert(k)` of a key `k` the tree
holds leaves the tree as it is: same shape, same key at every node, hence same
in-order sequence and same height. -/
theorem C9_insert_present (t : Tree) (k : Int) (h : IsBST t.root)
    (hk : k ∈ t.inOrderKeys) :
    t.insert k = t ∧ (t.insert k).inOrderKeys = t.inOrderKeys ∧
      height (t.insert k).root = height t.root := by
  have e : t.insert k = t := by
    rw [inOrderKeys_eq] at hk
    cases t with
    | mk root => exact congrArg Tree.mk (insertRec_of_mem root k h hk)
  rw [e]
  exact ⟨rfl, rfl, rfl⟩

/-- C9, at the tree built from `[1,2,3,4,5,6,7]` and the key 6. -/
theorem C9_insert_present_witness :
    IsBST (Tree.new [1, 2, 3, 4, 5, 6, 7]).root ∧
      (6 : Int) ∈ (Tree.new [1, 2, 3, 4, 5, 6, 7]).inOrderKeys ∧
      (Tree.new [1, 2, 3, 4, 5, 6, 7]).insert 6 = Tree.new [1, 2, 3, 4, 5, 6, 7] :=
  have h1 : IsBST (Tree.new [1, 2, 3, 4, 5, 6, 7]).root := isBST_buildTree _
  have h2 : (6 : Int) ∈ (Tree.new [1, 2, 3, 4, 5, 6, 7]).inOrderKeys := by
    rw [inOrderKeys_eq]
    show (6 : Int) ∈ (buildTree [1, 2, 3, 4, 5, 6, 7]).keys
    rw [buildTree_one_to_seven]
    decide
  ⟨h1, h2, (C9_insert_present _ 6 h1 h2).1⟩

/-- C10: on a tree with the BST property, `insert(k)` of a key `k` the tree
does not hold puts a leaf with key `k` where a `null` was and changes nothing
else: every node keeps its key and its place, there is one node more, and the
in-order sequence is the former one with `k` at its sorted place; on the empty
tree the leaf becomes the root. -/
theorem C10_insert_absent :
    (∀ (t : Tree) (k : Int), IsBST t.root → k ∉ t.inOrderKeys →
      (∃ path, t.root.subtreeAt path = some .null ∧
        (t.insert k).root = t.root.replaceAt path (.mk k .null .null) ∧
        (t.insert k).root.subtreeAt path = some (.mk k .null .null)) ∧
      (∀ path d, t.root.keyAt path = some d → (t.insert k).root.keyAt path = some d) ∧
      (t.insert k).root.size = t.root.size + 1 ∧
      (t.insert k).inOrderKeys = t.inOrderKeys.orderedInsert (· ≤ ·) k) ∧
    (∀ k : Int, ((Tree.new []).insert k).root = .mk k .null .null) := by
  constructor
  · intro t k h hk
    rw [inOrderKeys_eq] at hk
    refine ⟨insertRec_eq_replaceAt t.root k hk, fun path d hd => keyAt_insertRec _ _ _ _ hd,
      size_insertRec _ _ hk, ?_⟩
    rw [inOrderKeys_eq, inOrderKeys_eq]
    exact keys_insertRec _ _ h hk
  · intro k
    show insertRec (buildTree []) k = _
    rw [buildTree_nil]
    rfl

/-- C10, at the tree built from `[1,2,3,5,6,7]` and the key 4. -/
theorem C10_insert_absent_witness :
    IsBST (Tree.new [1, 2, 3, 5, 6, 7]).root ∧
      (4 : Int) ∉ (Tree.new [1, 2, 3, 5, 6, 7]).inOrderKeys ∧
      ((Tree.new [1, 2, 3, 5, 6, 7]).insert 4).inOrderKeys =
        (Tree.new [1, 2, 3, 5, 6, 7]).inOrderKeys.orderedInsert (· ≤ ·) 4 :=
  have h1 : IsBST (Tree.new [1, 2, 3, 5, 6, 7]).root := isBST_buildTree _
  have h2 : (4 : Int) ∉ (Tree.new [1, 2, 3, 5, 6, 7]).inOrderKeys := by
    rw [inOrderKeys_eq]
    show (4 : Int) ∉ (buildTree [1, 2, 3, 5, 6, 7]).keys
    rw [keys_buildTree]
    decide
  ⟨h1, h2, (C10_insert_absent.1 _ 4 h1 h2).2.2.2⟩

/-! ## Height after insertion, deletion of an absent key, lookup -/

theorem height_insertRec (node : Node) (value : Int) :
    height node ≤ height (insertRec node value) ∧
      height (insertRec node value) ≤ height node + 1 := by
  induction node with
  | null => simp [insertRec, height]
  | mk data left right ihl ihr =>
    simp only [insertRec]
    split_ifs with h1 h2
    · simp only [height]; omega
    · simp only [height]; omega
    · omega

theorem deleteRec_of_not_mem (node : Node) (value : Int) (hv : value ∉ node.keys) :
    deleteRec node value = node := by
  induction node with
  | null => rfl
  | mk data left right ihl ihr =>
    simp only [Node.keys, List.mem_append, List.mem_cons, not_or] at hv
    obtain ⟨hvl, hvd, hvr⟩ := hv
    simp only [deleteRec]
    split_ifs with h1 h2
    · rw [ihl hvl]
    · rw [ihr hvr]
    all_goals omega

theorem findRec_of_mem (node : Node) (value : Int) (h : IsBST node)
    (hv : value ∈ node.keys) :
    ∃ path left right, node.subtreeAt path = some (.mk value left right) ∧
      findRec node value = .mk value left right := by
  induction node with
  | null => simp [Node.keys] at hv
  | mk data left right ihl ihr =>
    obtain ⟨hl, hr, hlt, hgt⟩ := h
    simp only [Node.keys, List.mem_append, List.mem_cons] at hv
    simp only [findRec]
    split_ifs with h1 h2
    · subst h1
      exact ⟨[], left, right, rfl, rfl⟩
    · rcases hv with hv | hv | hv
      · obtain ⟨path, l, r, p1, p2⟩ := ihl hl hv
        exact ⟨.left :: path, l, r, by simpa [Node.subtreeAt] using p1, p2⟩
      · exact absurd hv.symm h1
      · have := hgt value hv; omega
    · rcases hv with hv | hv | hv
      · have := hlt value hv; omega
      · exact absurd hv.symm h1
      · obtain ⟨path, l, r, p1, p2⟩ := ihr hr hv
        exact ⟨.right :: path, l, r, by simpa [Node.subtreeAt] using p1, p2⟩

theorem deleteRec_insertRec (node : Node) (value : Int) (hv : value ∉ node.keys) :
    deleteRec (insertRec node value) value = node := by
  induction node with
  | null => simp [insertRec, deleteRec]
  | mk data left right ihl ihr =>
    simp only [Node.keys, List.mem_append, List.mem_cons, not_or] at hv
    obtain ⟨hvl, hvd, hvr⟩ := hv
    simp only [insertRec]
    split_ifs with h1 h2
    · simp only [deleteRec, if_pos h1, ihl hvl]
    · simp only [deleteRec, if_neg h1, if_pos h2, ihr hvr]
    · omega

/-! ## Depth -/

theorem depth_of_not_below (node : Option (List Dir)) (current : Node) (here : List Dir)
    (d : Int) (h : ∀ q, node ≠ some (here ++ q)) : depth node current here d = -1 := by
  induction current generalizing here d with
  | null => rfl
  | mk data left right ihl ihr =>
    have h0 : node ≠ some here := by simpa using h []
    have hl : depth node left (here ++ [.left]) (d + 1) = -1 :=
      ihl _ _ (fun q => by simpa using h (.left :: q))
    have hr : depth node right (here ++ [.right]) (d + 1) = -1 :=
      ihr _ _ (fun q => by simpa using h (.right :: q))
    simp only [depth, if_neg h0, hl, hr]
    simp

theorem depth_below (current : Node) (here q : List Dir) (d : Int) (hd : 0 ≤ d) :
    (current.IsNodeAt q → depth (some (here ++ q)) current here d = d + q.length) ∧
      (¬ current.IsNodeAt q → depth (some (here ++ q)) current here d = -1) := by
  induction current generalizing here q d with
  | null =>
    refine ⟨fun h => ?_, fun _ => rfl⟩
    obtain ⟨data, left, right, h⟩ := h
    cases q <;> simp [Node.subtreeAt] at h
  | mk data left right ihl ihr =>
    match q with
    | [] =>
      refine ⟨fun _ => ?_, fun h => absurd ⟨data, left, right, rfl⟩ h⟩
      simp [depth]
    | .left :: q =>
      have h0 : some (here ++ Dir.left :: q) ≠ some here := by simp
      have e : here ++ Dir.left :: q = (here ++ [Dir.left]) ++ q := by simp
      have hr : depth (some (here ++ Dir.left :: q)) right (here ++ [.right]) (d + 1) = -1 :=
        depth_of_not_below _ _ _ _ (fun q' => by simp)
      obtain ⟨i1, i2⟩ := ihl (here ++ [.left]) q (d + 1) (by omega)
      rw [← e] at i1 i2
      have hiff : (Node.mk data left right).IsNodeAt (.left :: q) ↔ left.IsNodeAt q := Iff.rfl
      constructor
      · intro h
        have := i1 (hiff.1 h)
        simp only [depth, if_neg h0, this]
        rw [if_pos (by omega)]
        simp only [List.length_cons]
        push_cast
        ring
      · intro h
        have := i2 (fun h' => h (hiff.2 h'))
        simp only [depth, if_neg h0, this, hr]
        simp
    | .right :: q =>
      have h0 : some (here ++ Dir.right :: q) ≠ some here := by simp
      have e : here ++ Dir.right :: q = (here ++ [Dir.right]) ++ q := by simp
      have hl : depth (some (here ++ Dir.right :: q)) left (here ++ [.left]) (d + 1) = -1 :=
        depth_of_not_below _ _ _ _ (fun q' => by simp)
      obtain ⟨i1, i2⟩ := ihr (here ++ [.right]) q (d + 1) (by omega)
      rw [← e] at i1 i2
      have hiff : (Node.mk data left right).IsNodeAt (.right :: q) ↔ right.IsNodeAt q :=
        Iff.rfl
      constructor
      · intro h
        have := i1 (hiff.1 h)
        simp only [depth, if_neg h0, hl, this]
        rw [if_neg (by simp)]
        simp only [List.length_cons]
        push_cast
        ring
      · intro h
        have := i2 (fun h' => h (hiff.2 h'))
        simp only [depth, if_neg h0, hl, this]
        simp

/-! ## Balance at every node -/

theorem isBalanced_iff (node : Node) :
    isBalanced node = true ↔
      ∀ path data left right, node.subtreeAt path = some (.mk data left right) →
        height left - height right ≤ 1 ∧ height right - height left ≤ 1 := by
  induction node with
  | null =>
    refine ⟨fun _ path data left right h => ?_, fun _ => rfl⟩
    cases path <;> simp [Node.subtreeAt] at h
  | mk d l r ihl ihr =>
    simp only [isBalanced, Bool.and_eq_true, decide_eq_true_eq, ihl, ihr]
    constructor
    · rintro ⟨⟨h0, hl⟩, hr⟩ path data left right h
      match path with
      | [] =>
        simp only [Node.subtreeAt, Option.some.injEq, Node.mk.injEq] at h
        obtain ⟨_, rfl, rfl⟩ := h
        omega
      | .left :: path => exact hl path data left right h
      | .right :: path => exact hr path data left right h
    · intro h
      refine ⟨⟨?_, fun path data left right hp => h (.left :: path) data left right hp⟩,
        fun path data left right hp => h (.right :: path) data left right hp⟩
      have := h [] d l r rfl
      omega

/-! ## Deletion of a key held by a node with two children -/

theorem mem_keys_of_subtreeAt (root : Node) (path : List Dir) (node : Node)
    (h : root.subtreeAt path = some node) (x : Int) (hx : x ∈ node.keys) : x ∈ root.keys := by
  induction root generalizing path with
  | null =>
    cases path with
    | nil =>
      simp only [Node.subtreeAt, Option.some.injEq] at h
      subst h
      exact hx
    | cons _ _ => simp [Node.subtreeAt] at h
  | mk data left right ihl ihr =>
    match path with
    | [] =>
      simp only [Node.subtreeAt, Option.some.injEq] at h
      subst h
      exact hx
    | .left :: path =>
      simp only [Node.keys, List.mem_append]
      exact Or.inl (ihl path h)
    | .right :: path =>
      simp only [Node.keys, List.mem_append, List.mem_cons]
      exact Or.inr (Or.inr (ihr path h))

theorem deleteRec_at (root : Node) (path : List Dir) (k : Int) (l r : Node)
    (hb : IsBST root) (h : root.subtreeAt path = some (.mk k l r)) :
    deleteRec root k = root.replaceAt path (deleteRec (.mk k l r) k) := by
  induction root generalizing path with
  | null => cases path <;> simp [Node.subtreeAt] at h
  | mk data left right ihl ihr =>
    obtain ⟨hl, hr, hlt, hgt⟩ := hb
    match path with
    | [] =>
      simp only [Node.subtreeAt, Option.some.injEq] at h
      rw [h]
      rfl
    | .left :: path =>
      have hk : k < data :=
        hlt k (mem_keys_of_subtreeAt left path _ h k (by simp [Node.keys]))
      rw [deleteRec, if_pos hk, Node.replaceAt, ihl path hl h]
    | .right :: path =>
      have hk : data < k :=
        hgt k (mem_keys_of_subtreeAt right path _ h k (by simp [Node.keys]))
      rw [deleteRec, if_neg (by omega), if_pos hk, Node.replaceAt, ihr path hr h]

theorem deleteRec_two_children (k : Int) (l r : Node) (hl : l ≠ .null) (hr : r ≠ .null) :
    ∃ m rest, r.keys = m :: rest ∧
      deleteRec (.mk k l r) k = .mk m l (deleteRec r m) := by
  cases r with
  | null => exact absurd rfl hr
  | mk rd rl rr =>
    obtain ⟨m, mr, rest, hm, hk⟩ := findMin_mk rd rl rr
    refine ⟨m, rest, hk, ?_⟩
    rw [deleteRec, if_neg (lt_irrefl k), if_neg (lt_irrefl k), if_neg hl, if_neg hr, hm]

theorem subtreeAt_replaceAt (root : Node) (path : List Dir) (new : Node)
    (h : (root.subtreeAt path).isSome) : (root.replaceAt path new).subtreeAt path = some new := by
  induction root generalizing path with
  | null =>
    cases path with
    | nil => simp [Node.replaceAt, Node.subtreeAt]
    | cons _ _ => simp [Node.subtreeAt] at h
  | mk data left right ihl ihr =>
    match path with
    | [] => simp [Node.replaceAt, Node.subtreeAt]
    | .left :: path => exact ihl path h
    | .right :: path => exact ihr path h

theorem keyAt_replaceAt (root : Node) (path q : List Dir) (new : Node)
    (h : ∀ q', q ≠ path ++ q') : (root.replaceAt path new).keyAt q = root.keyAt q := by
  induction root generalizing path q with
  | null =>
    cases path with
    | nil => exact absurd rfl (h q)
    | cons _ _ => rfl
  | mk data left right ihl ihr =>
    match path, q, h with
    | [], q, h => exact absurd rfl (h q)
    | .left :: path, [], _ => rfl
    | .right :: path, [], _ => rfl
    | .left :: path, .left :: q, h =>
      exact ihl path q (fun q' hq => h q' (by rw [hq]; rfl))
    | .left :: path, .right :: q, _ => rfl
    | .right :: path, .left :: q, _ => rfl
    | .right :: path, .right :: q, h =>
      exact ihr path q (fun q' hq => h q' (by rw [hq]; rfl))

/-! ## The midpoint choice of `sortedArrayToBST` -/

theorem size_sortedArrayToBST (array : List Int) (n s : Nat) :
    (sortedArrayToBST array s ((s : Int) + n - 1)).size = n := by
  induction n using Nat.strong_induction_on generalizing s with
  | _ n ih =>
    rcases Nat.eq_zero_or_pos n with rfl | hn
    · rw [sortedArrayToBST_empty]; rfl
    · rw [sortedArrayToBST_step array s n hn, Node.size,
        ih ((n - 1) / 2) (by omega) s, ih (n / 2) (by omega) (s + (n - 1) / 2 + 1)]
      omega

theorem sizes_sortedArrayToBST (array : List Int) (n s : Nat) (path : List Dir)
    (data : Int) (left right : Node)
    (h : (sortedArrayToBST array s ((s : Int) + n - 1)).subtreeAt path =
      some (.mk data left right)) :
    left.size ≤ right.size ∧ right.size ≤ left.size + 1 := by
  induction n using Nat.strong_induction_on generalizing s path with
  | _ n ih =>
    rcases Nat.eq_zero_or_pos n with rfl | hn
    · rw [sortedArrayToBST_empty] at h
      cases path <;> simp [Node.subtreeAt] at h
    · rw [sortedArrayToBST_step array s n hn] at h
      match path with
      | [] =>
        simp only [Node.subtreeAt, Option.some.injEq, Node.mk.injEq] at h
        obtain ⟨_, rfl, rfl⟩ := h
        rw [size_sortedArrayToBST, size_sortedArrayToBST]
        omega
      | .left :: path => exact ih ((n - 1) / 2) (by omega) s path h
      | .right :: path => exact ih (n / 2) (by omega) (s + (n - 1) / 2 + 1) path h

theorem sort_newSet_eq_finset_sort (array : List Int) :
    sort (newSet array) = array.toFinset.sort (· ≤ ·) := by
  apply List.eq_of_perm_of_sorted (r := (· ≤ ·)) _ (List.sorted_insertionSort _ _)
    (Finset.sort_sorted _ _)
  apply (List.perm_ext_iff_of_nodup (sorted_lt_sort_newSet array).nodup
    (Finset.sort_nodup _ _)).2
  intro x
  rw [mem_sort_newSet, Finset.mem_sort, List.mem_toFinset]

theorem keyAt_root_buildTree (array : List Int) (h : 0 < (sort (newSet array)).length) :
    (buildTree array).keyAt [] =
      (sort (newSet array))[((sort (newSet array)).length - 1) / 2]? := by
  have e := sortedArrayToBST_step (sort (newSet array)) 0 (sort (newSet array)).length h
  have e' : buildTree array = sortedArrayToBST (sort (newSet array)) ((0 : Nat) : Int)
      (((0 : Nat) : Int) + ((sort (newSet array)).length : Nat) - 1) := by
    simp [buildTree]
  rw [e', e, Node.keyAt, arrayAt_natCast, List.getD_eq_getElem?_getD]
  have hlt : ((sort (newSet array)).length - 1) / 2 < (sort (newSet array)).length := by
    omega
  simp [List.getElem?_eq_getElem hlt]

/-! ## Breadth-first order -/

theorem generations_nil (k : Nat) : generations k [] = [] := by
  induction k with
  | zero => rfl
  | succ k ih => simp [generations, ih]

theorem ne_null_of_mem_children (node x : Node) (hx : x ∈ node.children) : x ≠ .null := by
  cases node with
  | null => simp [Node.children] at hx
  | mk data left right =>
    simp only [Node.children, List.mem_append] at hx
    rcases hx with hx | hx
    · split_ifs at hx with h
      · simp only [List.mem_singleton] at hx; rw [hx]; exact h
      · simp at hx
    · split_ifs at hx with h
      · simp only [List.mem_singleton] at hx; rw [hx]; exact h
      · simp at hx

theorem sum_size_children (data : Int) (left right : Node) :
    ((Node.mk data left right).children.map Node.size).sum + 1 =
      (Node.mk data left right).size := by
  cases left <;> cases right <;> simp [Node.children, Node.size]

theorem levelOrderLoop_cons (σ : Type) (cb : σ → Node → σ) (data : Int)
    (left right : Node) (rest : List Node) (s : σ) :
    levelOrderLoop cb (.mk data left right :: rest) s =
      levelOrderLoop cb (rest ++ (Node.mk data left right).children)
        (cb s (.mk data left right)) := by
  rw [levelOrderLoop]
  congr 1
  simp only [Node.children]
  split_ifs <;> simp

theorem levelOrderLoop_generations {σ : Type} (cb : σ → Node → σ) (n : Nat) :
    ∀ (cur next : List Node) (s : σ) (k : Nat), (∀ x ∈ cur ++ next, x ≠ Node.null) →
      ((cur ++ next).map Node.size).sum = n → n ≤ k →
      levelOrderLoop cb (cur ++ next) s =
        (.ok (), (cur ++ generations k (next ++ cur.flatMap Node.children)).foldl cb s) := by
  induction n using Nat.strong_induction_on with
  | _ n ih =>
    intro cur next s k hnn hn hk
    match cur, next with
    | [], [] => simp [levelOrderLoop, generations_nil]
    | [], .null :: next => exact absurd rfl (hnn .null (by simp))
    | [], .mk data left right :: next =>
      have hsum := sum_size_children data left right
      simp only [List.nil_append, List.map_cons, List.sum_cons] at hn
      obtain ⟨k, rfl⟩ : ∃ k', k = k' + 1 := ⟨k - 1, by simp only [Node.size] at hn; omega⟩
      rw [List.nil_append, levelOrderLoop_cons,
        ih (n - 1) (by simp only [Node.size] at hn; omega) next
          (Node.mk data left right).children _ k ?_ ?_ (by omega)]
      · simp [generations]
      · intro x hx
        rcases List.mem_append.1 hx with hx | hx
        · exact hnn x (by simp [hx])
        · exact ne_null_of_mem_children _ x hx
      · simp only [List.map_append, List.sum_append]
        omega
    | .null :: cur, next => exact absurd rfl (hnn .null (by simp))
    | .mk data left right :: cur, next =>
      have hsum := sum_size_children data left right
      simp only [List.cons_append, List.map_cons, List.sum_cons, List.map_append,
        List.sum_append] at hn
      rw [List.cons_append, levelOrderLoop_cons, List.append_assoc,
        ih (n - 1) (by simp only [Node.size] at hn; omega) cur
          (next ++ (Node.mk data left right).children) _ k ?_ ?_ (by omega)]
      · simp
      · intro x hx
        rcases List.mem_append.1 hx with hx | hx
        · exact hnn x (by simp [hx])
        · rcases List.mem_append.1 hx with hx | hx
          · exact hnn x (by simp [hx])
          · exact ne_null_of_mem_children _ x hx
      · simp only [List.map_append, List.sum_append]
        omega

theorem flatMap_level_succ (queue : List Node) (n : Nat) :
    queue.flatMap (fun t => t.level (n + 1)) =
      (queue.flatMap Node.children).flatMap (fun t => t.level n) := by
  induction queue with
  | nil => rfl
  | cons t queue ih =>
    rw [List.flatMap_cons, List.flatMap_cons, List.flatMap_append, ih]
    congr 1
    cases t with
    | null => rfl
    | mk data left right =>
      cases left <;> cases right <;> simp [Node.children, Node.level]

theorem flatMap_level_zero (queue : List Node) (h : ∀ x ∈ queue, x ≠ Node.null) :
    queue.flatMap (fun t => t.level 0) = queue := by
  induction queue with
  | nil => rfl
  | cons t queue ih =>
    rw [List.flatMap_cons, ih (fun x hx => h x (List.mem_cons_of_mem _ hx))]
    cases t with
    | null => exact absurd rfl (h .null (List.mem_cons_self _ _))
    | mk data left right => rfl

theorem generations_eq_levels (k : Nat) (queue : List Node)
    (h : ∀ x ∈ queue, x ≠ Node.null) :
    generations k queue =
      (List.range k).flatMap (fun n => queue.flatMap (fun t => t.level n)) := by
  induction k generalizing queue with
  | zero => rfl
  | succ k ih =>
    rw [generations, List.range_succ_eq_map, List.flatMap_cons, List.flatMap_map,
      flatMap_level_zero queue h, ih]
    · congr 1
      apply List.flatMap_congr
      intro n _
      exact (flatMap_level_succ queue n).symm
    · intro x hx
      obtain ⟨t, _, hxt⟩ := List.mem_flatMap.1 hx
      exact ne_null_of_mem_children t x hxt

theorem level_eq_nil (node : Node) (n : Nat) (h : (height node + 1).toNat ≤ n) :
    node.level n = [] := by
  induction node generalizing n with
  | null => rfl
  | mk data left right ihl ihr =>
    have hl := neg_one_le_height left
    have hr := neg_one_le_height right
    simp only [height] at h
    match n with
    | 0 => omega
    | n + 1 =>
      rw [Node.level, ihl n (by omega), ihr n (by omega)]
      rfl

theorem height_add_one_le_size (node : Node) : (height node + 1).toNat ≤ node.size := by
  induction node with
  | null => simp [height]
  | mk data left right ihl ihr =>
    have hl := neg_one_le_height left
    have hr := neg_one_le_height right
    simp only [height, Node.size]
    omega

theorem flatMap_range_level (node : Node) (j : Nat) :
    (List.range ((height node + 1).toNat + j)).flatMap node.level = node.levelOrderNodes := by
  induction j with
  | zero => rfl
  | succ j ih =>
    rw [← Nat.add_assoc, List.range_succ, List.flatMap_append, ih, List.flatMap_singleton,
      level_eq_nil node _ (by omega), List.append_nil]

theorem levelOrderLoop_root {σ : Type} (cb : σ → Node → σ) (root : Node) (s : σ)
    (h : root ≠ .null) :
    levelOrderLoop cb [root] s = (.ok (), root.levelOrderNodes.foldl cb s) := by
  have e := levelOrderLoop_generations cb root.size [root] [] s root.size
    (by simpa using h) (by simp) le_rfl
  have g : [root] ++ generations root.size ([] ++ [root].flatMap Node.children) =
      generations (root.size + 1) [root] := by
    simp [generations]
  rw [List.append_nil] at e
  rw [e, g, generations_eq_levels _ _ (by simpa using h)]
  have hj : root.size + 1 = (height root + 1).toNat +
      (root.size + 1 - (height root + 1).toNat) := by
    have := height_add_one_le_size root
    omega
  rw [hj]
  have := flatMap_range_level root (root.size + 1 - (height root + 1).toNat)
  simp only [List.flatMap_singleton] at *
  rw [← this]

theorem levels_perm_inOrderNodes (node : Node) (k : Nat) (h : (height node + 1).toNat ≤ k) :
    ((List.range k).flatMap node.level).Perm node.inOrderNodes := by
  induction node generalizing k with
  | null =>
    have : (List.range k).flatMap Node.null.level = [] :=
      List.flatMap_eq_nil_iff.2 (fun n _ => rfl)
    rw [this]
    exact List.Perm.refl _
  | mk data left right ihl ihr =>
    have hl := neg_one_le_height left
    have hr := neg_one_le_height right
    simp only [height] at h
    match k with
    | 0 => omega
    | k + 1 =>
      rw [List.range_succ_eq_map, List.flatMap_cons, List.flatMap_map]
      show ([Node.mk data left right] ++
        (List.range k).flatMap (fun n => left.level n ++ right.level n)).Perm _
      have p1 := (List.flatMap_append_perm (List.range k) left.level right.level).symm
      have p2 := (ihl k (by omega)).append (ihr k (by omega))
      have p3 := (p1.trans p2).cons (Node.mk data left right)
      exact p3.trans List.perm_middle.symm

theorem null_not_mem_inOrderNodes (node : Node) : Node.null ∉ node.inOrderNodes := by
  induction node with
  | null => simp [Node.inOrderNodes]
  | mk data left right ihl ihr => simp [Node.inOrderNodes, ihl, ihr]

theorem length_inOrderNodes (node : Node) : node.inOrderNodes.length = node.size := by
  induction node with
  | null => rfl
  | mk data left right ihl ihr => simp [Node.inOrderNodes, Node.size, ihl, ihr]; omega

theorem isBST_subtreeAt (root : Node) (path : List Dir) (node : Node) (hb : IsBST root)
    (h : root.subtreeAt path = some node) : IsBST node := by
  induction root generalizing path with
  | null =>
    cases path with
    | nil =>
      simp only [Node.subtreeAt, Option.some.injEq] at h
      subst h
      exact hb
    | cons _ _ => simp [Node.subtreeAt] at h
  | mk data left right ihl ihr =>
    match path with
    | [] =>
      simp only [Node.subtreeAt, Option.some.injEq] at h
      subst h
      exact hb
    | .left :: path => exact ihl path hb.1 h
    | .right :: path => exact ihr path hb.2.1 h

theorem tree_ext (t u : Tree) (h : t.root = u.root) : t = u := by
  cases t; cases u; exact congrArg Tree.mk h

theorem keys_one_to_seven : (Tree.new [1, 2, 3, 4, 5, 6, 7]).inOrderKeys = [1, 2, 3, 4, 5, 6, 7] := by
  rw [inOrderKeys_eq]
  show (buildTree [1, 2, 3, 4, 5, 6, 7]).keys = _
  rw [buildTree_one_to_seven]
  decide

/-! ## The claims, continued -/

/-- C11: for every tree and every key, the height after `insert(k)` is at
least the height before and at most one more. -/
theorem C11_height_insert (t : Tree) (k : Int) :
    height t.root ≤ height (t.insert k).root ∧
      height (t.insert k).root ≤ height t.root + 1 :=
  height_insertRec t.root k

/-- C12: on every tree, `deleteItem(k)` of a key `k` that no node holds
returns normally and leaves the tree as it is, shape and keys; on the empty
tree it leaves the root `null`. -/
theorem C12_delete_absent :
    (∀ (t : Tree) (k : Int), k ∉ t.inOrderKeys → t.deleteItem k = t) ∧
      ∀ k : Int, ((Tree.new []).deleteItem k).root = .null := by
  constructor
  · intro t k hk
    rw [inOrderKeys_eq] at hk
    exact tree_ext _ _ (deleteRec_of_not_mem t.root k hk)
  · intro k
    show deleteRec (buildTree []) k = .null
    rw [buildTree_nil]
    rfl

/-- C12, at the tree built from `[1,2,3,4,5,6,7]` and the key 9. -/
theorem C12_delete_absent_witness :
    (9 : Int) ∉ (Tree.new [1, 2, 3, 4, 5, 6, 7]).inOrderKeys ∧
      (Tree.new [1, 2, 3, 4, 5, 6, 7]).deleteItem 9 = Tree.new [1, 2, 3, 4, 5, 6, 7] :=
  have h : (9 : Int) ∉ (Tree.new [1, 2, 3, 4, 5, 6, 7]).inOrderKeys := by
    rw [keys_one_to_seven]; decide
  ⟨h, C12_delete_absent.1 _ 9 h⟩

/-- C13: on a tree with the BST property, `find(k)` returns a node of the tree
whose key is `k` when `k` occurs in the tree and `null` when it does not; on
the empty tree it returns `null` for every key. -/
theorem C13_find :
    (∀ (t : Tree) (k : Int), IsBST t.root →
      (k ∈ t.inOrderKeys → ∃ path left right,
        t.root.subtreeAt path = some (.mk k left right) ∧ t.find k = .mk k left right) ∧
      (k ∉ t.inOrderKeys → t.find k = .null)) ∧
    ∀ k : Int, (Tree.new []).find k = .null := by
  constructor
  · intro t k h
    rw [inOrderKeys_eq]
    exact ⟨fun hk => findRec_of_mem t.root k h hk, fun hk => findRec_eq_null t.root k h hk⟩
  · intro k
    show findRec (buildTree []) k = .null
    rw [buildTree_nil]
    rfl

/-- C13, at the tree built from `[1,2,3,4,5,6,7]`: the key 6 is found, the
key 9 is not. -/
theorem C13_find_witness :
    IsBST (Tree.new [1, 2, 3, 4, 5, 6, 7]).root ∧
      (6 : Int) ∈ (Tree.new [1, 2, 3, 4, 5, 6, 7]).inOrderKeys ∧
      (9 : Int) ∉ (Tree.new [1, 2, 3, 4, 5, 6, 7]).inOrderKeys ∧
      (∃ path left right,
        (Tree.new [1, 2, 3, 4, 5, 6, 7]).root.subtreeAt path = some (.mk 6 left right) ∧
        (Tree.new [1, 2, 3, 4, 5, 6, 7]).find 6 = .mk 6 left right) ∧
      (Tree.new [1, 2, 3, 4, 5, 6, 7]).find 9 = .null :=
  have h : IsBST (Tree.new [1, 2, 3, 4, 5, 6, 7]).root := isBST_buildTree _
  have h6 : (6 : Int) ∈ (Tree.new [1, 2, 3, 4, 5, 6, 7]).inOrderKeys := by
    rw [keys_one_to_seven]; decide
  have h9 : (9 : Int) ∉ (Tree.new [1, 2, 3, 4, 5, 6, 7]).inOrderKeys := by
    rw [keys_one_to_seven]; decide
  ⟨h, h6, h9, (C13_find.1 _ 6 h).1 h6, (C13_find.1 _ 9 h).2 h9⟩

/-- C14: with a node of the tree identified by its path from the root,
`depth` of a node of the tree is the number of edges of that path, 0 for the
root; `depth` of a reference that is no node of the tree is -1, and so is every
`depth` on the empty tree. -/
theorem C14_depth :
    (∀ (t : Tree) (path : List Dir), t.root.IsNodeAt path →
      t.depth (some path) = path.length) ∧
    (∀ t : Tree, t.root ≠ .null → t.depth (some []) = 0) ∧
    (∀ (t : Tree) (path : List Dir), ¬ t.root.IsNodeAt path → t.depth (some path) = -1) ∧
    (∀ t : Tree, t.depth none = -1) ∧
    ∀ node : Option (List Dir), (Tree.new []).depth node = -1 := by
  refine ⟨?_, ?_, ?_, ?_, ?_⟩
  · intro t path h
    have := (depth_below t.root [] path 0 le_rfl).1 h
    simpa [Tree.depth] using this
  · intro t h
    cases hr : t.root with
    | null => exact absurd hr h
    | mk data left right => simp [Tree.depth, depth, hr]
  · intro t path h
    have := (depth_below t.root [] path 0 le_rfl).2 h
    simpa [Tree.depth] using this
  · intro t
    exact depth_of_not_below none t.root [] 0 (fun q => by simp)
  · intro node
    show depth node (buildTree []) [] 0 = -1
    rw [buildTree_nil]
    rfl

/-- C14, at `sparseBalancedTree`: the node with key 1 lies three edges below
the root, and no node lies at right-right-right. -/
theorem C14_depth_witness :
    sparseBalancedTree.root.IsNodeAt [.left, .left, .left] ∧
      sparseBalancedTree.depth (some [.left, .left, .left]) = 3 ∧
      sparseBalancedTree.root ≠ .null ∧ sparseBalancedTree.depth (some []) = 0 ∧
      ¬ sparseBalancedTree.root.IsNodeAt [.right, .right, .right] ∧
      sparseBalancedTree.depth (some [.right, .right, .right]) = -1 :=
  have h1 : sparseBalancedTree.root.IsNodeAt [.left, .left, .left] := ⟨1, .null, .null, rfl⟩
  have h2 : sparseBalancedTree.root ≠ .null := by decide
  have h3 : ¬ sparseBalancedTree.root.IsNodeAt [.right, .right, .right] := by
    rintro ⟨data, left, right, h⟩
    simp [sparseBalancedTree, Node.subtreeAt] at h
  ⟨h1, C14_depth.1 _ _ h1, h2, C14_depth.2.1 _ h2, h3, C14_depth.2.2.1 _ _ h3⟩

/-- C15: `isBalanced` returns true on a subtree exactly when at every node of
the subtree the heights of the left and the right subtree, -1 for an empty one,
differ by at most 1; on `null` and on the empty tree it returns true. -/
theorem C15_isBalanced (node : Node) :
    (isBalanced node = true ↔
      ∀ path data left right, node.subtreeAt path = some (.mk data left right) →
        height left - height right ≤ 1 ∧ height right - height left ≤ 1) ∧
    height .null = -1 ∧ isBalanced .null = true ∧ (Tree.new []).isBalanced = true := by
  refine ⟨isBalanced_iff node, rfl, rfl, ?_⟩
  show isBalanced (buildTree []) = true
  rw [buildTree_nil]
  rfl

/-- C15, at `sparseBalancedTree`, which `isBalanced` accepts. -/
theorem C15_isBalanced_witness :
    isBalanced sparseBalancedTree.root = true ∧
      ∀ path data left right,
        sparseBalancedTree.root.subtreeAt path = some (.mk data left right) →
          height left - height right ≤ 1 ∧ height right - height left ≤ 1 :=
  ⟨by decide, (C15_isBalanced sparseBalancedTree.root).1.1 (by decide)⟩

/-- C16: on a non-empty tree `levelOrder` with a callback returns normally
after calling the callback on the nodes level by level from the root down, each
level left to right; these are the nodes of the tree, each once, and `null` is
not among them. -/
theorem C16_levelOrder {σ : Type} (t : Tree) (cb : σ → Node → σ) (s : σ)
    (h : t.root ≠ .null) :
    t.levelOrder (some cb) s = (.ok (), t.root.levelOrderNodes.foldl cb s) ∧
      t.root.levelOrderNodes.Perm t.root.inOrderNodes ∧
      t.root.levelOrderNodes.length = t.root.size ∧
      Node.null ∉ t.root.levelOrderNodes := by
  have p : t.root.levelOrderNodes.Perm t.root.inOrderNodes :=
    levels_perm_inOrderNodes t.root _ le_rfl
  refine ⟨levelOrderLoop_root cb t.root s h, p, ?_, ?_⟩
  · rw [p.length_eq, length_inOrderNodes]
  · intro hn
    exact null_not_mem_inOrderNodes t.root (p.mem_iff.1 hn)

/-- C16, at the tree built from `[1,2,3,4,5,6,7]` with the callback that
pushes the key of the node: the keys arrive as 4, 2, 6, 1, 3, 5, 7. -/
theorem C16_levelOrder_witness :
    (Tree.new [1, 2, 3, 4, 5, 6, 7]).root ≠ .null ∧
      (Tree.new [1, 2, 3, 4, 5, 6, 7]).levelOrder (some pushData) [] =
        (.ok (), [4, 2, 6, 1, 3, 5, 7]) :=
  have h : (Tree.new [1, 2, 3, 4, 5, 6, 7]).root ≠ .null := by
    show buildTree [1, 2, 3, 4, 5, 6, 7] ≠ .null
    rw [buildTree_one_to_seven]
    decide
  have e : (Tree.new [1, 2, 3, 4, 5, 6, 7]).root.levelOrderNodes.foldl pushData [] =
      [4, 2, 6, 1, 3, 5, 7] := by
    show (buildTree [1, 2, 3, 4, 5, 6, 7]).levelOrderNodes.foldl pushData [] = _
    rw [buildTree_one_to_seven]
    decide
  ⟨h, (C16_levelOrder _ pushData [] h).1.trans (by rw [e])⟩

/-- C17: on a tree with the BST property, the height after `rebalance()` is at
most the height of every binary tree with as many nodes, and so at most the
height before the call. -/
theorem C17_rebalance_minimum_height (t : Tree) (h : IsBST t.root) :
    (∀ other : Node, other.size = t.root.size →
      height t.rebalance.root ≤ height other) ∧
    height t.rebalance.root ≤ height t.root := by
  have hs : sort (newSet t.root.keys) = t.root.keys :=
    sort_newSet_of_sorted _ ((isBST_iff_sorted _).1 h)
  have e : height t.rebalance.root = (Nat.clog 2 (t.root.size + 1) : Int) - 1 := by
    rw [rebalance_root, height_buildTree, hs, length_keys]
  refine ⟨fun other ho => ?_, ?_⟩
  · rw [e, ← ho]
    exact clog_size_le_height other
  · rw [e]
    exact clog_size_le_height t.root

/-- C17, at `sparseBalancedTree` against itself and against the chain of the
keys 1 to 7. -/
theorem C17_rebalance_minimum_height_witness :
    IsBST sparseBalancedTree.root ∧
      height sparseBalancedTree.rebalance.root ≤ height sparseBalancedTree.root ∧
      height sparseBalancedTree.rebalance.root ≤
        height ((Tree.mk .null).run [.insert 1, .insert 2, .insert 3, .insert 4, .insert 5,
          .insert 6, .insert 7]).root :=
  ⟨by decide, (C17_rebalance_minimum_height sparseBalancedTree (by decide)).2,
    (C17_rebalance_minimum_height sparseBalancedTree (by decide)).1 _ (by decide)⟩

/-- C18: on a tree with the BST property, `deleteItem(k)` of a key held by a
node with two children puts at that node's place a node with the smallest key
of the former right subtree, the same left subtree, and as right subtree the
former one with that key deleted; the keys at all places outside that subtree
stay.  In the tree built from `[1,2,3,4,5,6,7]`, `deleteItem(4)` leaves the
root key 5. -/
theorem C18_delete_two_children :
    (∀ (t : Tree) (path : List Dir) (k : Int) (left right : Node), IsBST t.root →
      t.root.subtreeAt path = some (.mk k left right) → left ≠ .null → right ≠ .null →
      ∃ m, m ∈ right.keys ∧ (∀ x ∈ right.keys, m ≤ x) ∧
        (t.deleteItem k).root = t.root.replaceAt path (.mk m left (deleteRec right m)) ∧
        (t.deleteItem k).root.subtreeAt path = some (.mk m left (deleteRec right m)) ∧
        ∀ q, (∀ q', q ≠ path ++ q') → (t.deleteItem k).root.keyAt q = t.root.keyAt q) ∧
    ((Tree.new [1, 2, 3, 4, 5, 6, 7]).deleteItem 4).root.keyAt [] = some 5 := by
  constructor
  · intro t path k left right hb h hl hr
    obtain ⟨m, rest, hk, hd⟩ := deleteRec_two_children k left right hl hr
    have hright : IsBST right := (isBST_subtreeAt t.root path _ hb h).2.1
    have hsorted := (isBST_iff_sorted right).1 hright
    rw [hk] at hsorted
    have e : (t.deleteItem k).root = t.root.replaceAt path (.mk m left (deleteRec right m)) := by
      show deleteRec t.root k = _
      rw [deleteRec_at t.root path k left right hb h, hd]
    refine ⟨m, ?_, ?_, e, ?_, ?_⟩
    · rw [hk]; exact List.mem_cons_self _ _
    · intro x hx
      rw [hk] at hx
      rcases List.mem_cons.1 hx with rfl | hx
      · exact le_rfl
      · exact le_of_lt ((List.sorted_cons.1 hsorted).1 x hx)
    · rw [e]
      exact subtreeAt_replaceAt _ _ _ (by rw [h]; rfl)
    · intro q hq
      rw [e]
      exact keyAt_replaceAt _ _ _ _ hq
  · show (deleteRec (buildTree [1, 2, 3, 4, 5, 6, 7]) 4).keyAt [] = some 5
    rw [buildTree_one_to_seven]
    decide

/-- C18, at the root of the tree built from `[1,2,3,4,5,6,7]`, which holds the
key 4 and has two children. -/
theorem C18_delete_two_children_witness :
    IsBST (Tree.new [1, 2, 3, 4, 5, 6, 7]).root ∧
      (Tree.new [1, 2, 3, 4, 5, 6, 7]).root.subtreeAt [] =
        some (.mk 4 (.mk 2 (.mk 1 .null .null) (.mk 3 .null .null))
          (.mk 6 (.mk 5 .null .null) (.mk 7 .null .null))) ∧
      ∃ m, m ∈ (Node.mk 6 (.mk 5 .null .null) (.mk 7 .null .null)).keys ∧
        ((Tree.new [1, 2, 3, 4, 5, 6, 7]).deleteItem 4).root =
          (Tree.new [1, 2, 3, 4, 5, 6, 7]).root.replaceAt []
            (.mk m (.mk 2 (.mk 1 .null .null) (.mk 3 .null .null))
              (deleteRec (.mk 6 (.mk 5 .null .null) (.mk 7 .null .null)) m)) :=
  have hb : IsBST (Tree.new [1, 2, 3, 4, 5, 6, 7]).root := isBST_buildTree _
  have h : (Tree.new [1, 2, 3, 4, 5, 6, 7]).root.subtreeAt [] =
      some (.mk 4 (.mk 2 (.mk 1 .null .null) (.mk 3 .null .null))
        (.mk 6 (.mk 5 .null .null) (.mk 7 .null .null))) := by
    show (buildTree [1, 2, 3, 4, 5, 6, 7]).subtreeAt [] = _
    rw [buildTree_one_to_seven]
    rfl
  ⟨hb, h, (C18_delete_two_children.1 _ [] 4 _ _ hb h (by decide) (by decide)).imp
    (fun _ hm => ⟨hm.1, hm.2.2.1⟩)⟩

/-- C19: for an input with `n ≥ 1` distinct keys the root key of the built
tree is the element at index `floor((n-1)/2)` of the sorted distinct keys, and
at every node of a built tree the node counts `L` of the left and `R` of the
right subtree satisfy `L ≤ R ≤ L + 1`. -/
theorem C19_midpoint (array : List Int) :
    (0 < array.toFinset.card →
      (Tree.new array).root.keyAt [] =
        (array.toFinset.sort (· ≤ ·))[(array.toFinset.card - 1) / 2]?) ∧
    ∀ path data left right,
      (Tree.new array).root.subtreeAt path = some (.mk data left right) →
        left.size ≤ right.size ∧ right.size ≤ left.size + 1 := by
  constructor
  · intro h
    rw [← length_sort_newSet] at h
    have := keyAt_root_buildTree array h
    rw [← sort_newSet_eq_finset_sort, ← length_sort_newSet]
    exact this
  · intro path data left right h
    have e : (Tree.new array).root = sortedArrayToBST (sort (newSet array)) ((0 : Nat) : Int)
        (((0 : Nat) : Int) + ((sort (newSet array)).length : Nat) - 1) := by
      simp [Tree.new, buildTree]
    rw [e] at h
    exact sizes_sortedArrayToBST _ _ _ path data left right h

/-- C19, at the input `[3,1,4,1,5,9,2,6]`: the sorted distinct keys are
1, 2, 3, 4, 5, 6, 9 and the root key is the one at index 3. -/
theorem C19_midpoint_witness :
    0 < ([3, 1, 4, 1, 5, 9, 2, 6] : List Int).toFinset.card ∧
      (Tree.new [3, 1, 4, 1, 5, 9, 2, 6]).root.keyAt [] =
        (([3, 1, 4, 1, 5, 9, 2, 6] : List Int).toFinset.sort (· ≤ ·))[
          (([3, 1, 4, 1, 5, 9, 2, 6] : List Int).toFinset.card - 1) / 2]? ∧
      (Tree.new [3, 1, 4, 1, 5, 9, 2, 6]).root.keyAt [] = some 4 :=
  ⟨by decide, (C19_midpoint [3, 1, 4, 1, 5, 9, 2, 6]).1 (by decide), by
    show (buildTree [3, 1, 4, 1, 5, 9, 2, 6]).keyAt [] = some 4
    rw [buildTree_pi_digits]
    rfl⟩

/-- C20: on a tree with the BST property, `insert(k)` of a key the tree does
not hold followed by `deleteItem(k)` gives back the tree, same shape and same
key at every node. -/
theorem C20_insert_then_delete (t : Tree) (k : Int) (_h : IsBST t.root)
    (hk : k ∉ t.inOrderKeys) : (t.insert k).deleteItem k = t := by
  rw [inOrderKeys_eq] at hk
  exact tree_ext _ _ (deleteRec_insertRec t.root k hk)

/-- C20, at the tree built from `[1,2,3,4,5,6,7]` and the key 9. -/
theorem C20_insert_then_delete_witness :
    IsBST (Tree.new [1, 2, 3, 4, 5, 6, 7]).root ∧
      (9 : Int) ∉ (Tree.new [1, 2, 3, 4, 5, 6, 7]).inOrderKeys ∧
      ((Tree.new [1, 2, 3, 4, 5, 6, 7]).insert 9).deleteItem 9 =
        Tree.new [1, 2, 3, 4, 5, 6, 7] :=
  have hb : IsBST (Tree.new [1, 2, 3, 4, 5, 6, 7]).root := isBST_buildTree _
  have h : (9 : Int) ∉ (Tree.new [1, 2, 3, 4, 5, 6, 7]).inOrderKeys := by
    rw [keys_one_to_seven]; decide
  ⟨hb, h, C20_insert_then_delete _ 9 hb h⟩

end BinarySearchTree
